import Mathlib

/-!
Verification of `src/backend/scripts/data_collector.py` (birrexchange).

The script is a four-stage pipeline: fetch exchange rates from an HTTP
endpoint, filter/validate them through two pydantic models (`FiatRate`,
`CryptoRate`), invert each rate with Python `decimal` arithmetic
(`1/Decimal(value)` under the default context: 28 significant digits,
round-half-even), and store one fiat and one crypto document in MongoDB.

The embedding below models:
* Python `decimal.Decimal` values as sign/coefficient/exponent triples,
  with division following the General Decimal Arithmetic `divide`
  operation that CPython's `decimal` module implements (precision 28,
  `ROUND_HALF_EVEN`, ideal exponent = lhs exponent - rhs exponent,
  trailing-zero reduction toward the ideal exponent on exact results);
* `str()` of a finite decimal (GDA `to-scientific-string`) and the
  `Decimal(string)` constructor on finite numeric literals;
* the four pipeline functions `fetch_exchange_rate`,
  `clean_exchange_rate`, `invert_exchange_rate`, `store_exchange_rate`
  and the `main` driver, including the exceptions they raise or swallow,
  the log lines they emit, and the database writes they perform.
-/

namespace BirrExchange

/-! ## Data model and operations (embedded from the source) -/

/-- A finite Python `decimal.Decimal`: sign (`true` = negative),
coefficient, and exponent, denoting `±coeff·10^exp`.  Mirrors
`Decimal.as_tuple()` with the digit tuple collapsed into a natural
number (leading zeros in the digit tuple are impossible). -/
structure PyDecimal where
  sign : Bool
  coeff : Nat
  exp : Int
deriving DecidableEq, Repr

/-- Rational value denoted by a decimal. -/
def ratOf (d : PyDecimal) : ℚ :=
  (if d.sign then -1 else 1) * (d.coeff : ℚ) * (10 : ℚ) ^ d.exp

/-- `Decimal(1)`, the dividend used by `invert_exchange_rate`. -/
def one : PyDecimal := ⟨false, 1, 0⟩

/-- Fuelled base-10 logarithm (number of digits minus one).  Fuel-based
so that concrete instances reduce inside the kernel; `nlog10` supplies
fuel `n`, always sufficient. -/
def log10F : Nat → Nat → Nat
  | 0, _ => 0
  | f + 1, n => if n < 10 then 0 else log10F f (n / 10) + 1

/-- `nlog10 n = ⌊log₁₀ n⌋` for `n ≥ 1` (and `0` at `0`). -/
def nlog10 (n : Nat) : Nat := log10F n n

/-- Adjusted exponent of a decimal (GDA terminology): exponent of the
most significant digit. -/
def adjExp (d : PyDecimal) : Int := d.exp + (nlog10 d.coeff : Int)

/-- Decide `10^k ≤ N/M` for naturals `N M` and an integer `k`. -/
def gePow10 (N M : Nat) (k : Int) : Bool :=
  if 0 ≤ k then decide (M * 10 ^ k.toNat ≤ N)
  else decide (M ≤ N * 10 ^ (-k).toNat)

/-- Round `N/M` to the nearest integer, ties to even
(`ROUND_HALF_EVEN`, the default `decimal` context rounding). -/
def roundHE (N M : Nat) : Nat :=
  if M < 2 * (N % M) then N / M + 1
  else if 2 * (N % M) < M then N / M
  else N / M + N / M % 2

/-- Trailing-zero reduction of an exact quotient toward the ideal
exponent (GDA `divide`, exact case).  Fuel 40 always suffices: the
coefficient entering here is at most `10^28`, hence has at most 28
trailing zeros. -/
def stripZeros : Nat → Nat → Int → Int → Nat × Int
  | 0, q, e, _ => (q, e)
  | f + 1, q, e, ideal =>
    if e < ideal ∧ q % 10 = 0 ∧ q ≠ 0 then stripZeros f (q / 10) (e + 1) ideal
    else (q, e)

def divK (N M : Nat) : Int := (nlog10 N : Int) - (nlog10 M : Int)

/-- `divD N M` is `⌊log₁₀ (N/M)⌋`: the adjusted exponent of the exact
quotient. -/
def divD (N M : Nat) : Int :=
  if gePow10 N M (divK N M) then divK N M else divK N M - 1

/-- Result exponent before rounding: 28 significant digits. -/
def divE (N M : Nat) : Int := divD N M - 27

def divN' (N M : Nat) : Nat :=
  if 0 ≤ divE N M then N else N * 10 ^ (-divE N M).toNat

def divM' (N M : Nat) : Nat :=
  if 0 ≤ divE N M then M * 10 ^ (divE N M).toNat else M

def divQ (N M : Nat) : Nat := roundHE (divN' N M) (divM' N M)

/-- Coefficient after the possible rounding carry `10^28 → 10^27`. -/
def divQ1 (N M : Nat) : Nat :=
  if divQ N M = 10 ^ 28 then 10 ^ 27 else divQ N M

def divE1 (N M : Nat) : Int :=
  if divQ N M = 10 ^ 28 then divE N M + 1 else divE N M

def divNM (N M : Nat) (ideal : Int) : Nat × Int :=
  if divN' N M % divM' N M = 0 then stripZeros 40 (divQ1 N M) (divE1 N M) ideal
  else (divQ1 N M, divE1 N M)

/-- `Emax` of the default `decimal` context (`getcontext().Emax`). -/
def Emax : Int := 999999

/-- `Emin` of the default `decimal` context (`getcontext().Emin`). -/
def Emin : Int := -999999

/-- `Etiny = Emin - prec + 1`: the smallest exponent a (subnormal)
result may carry under the default context. -/
def Etiny : Int := Emin - 27

/-- GDA `divide` of finite decimals before the context's exponent
bounds are applied: the correctly rounded quotient at 28 significant
digits, trailing zeros of an exact quotient removed toward the ideal
exponent `a.exp - b.exp`.  Scaling by a power of ten commutes with
rounding, digit counts and the stripping condition, so the coefficient
quotient is computed at ideal exponent `0` and the exponent difference
is added back. -/
def pyDivRes (a b : PyDecimal) : PyDecimal :=
  ⟨xor a.sign b.sign, (divNM a.coeff b.coeff 0).1,
    (divNM a.coeff b.coeff 0).2 + (a.exp - b.exp)⟩

/-- Python `a / b` on finite decimals, `b.coeff ≠ 0`, under the default
context (precision 28, `ROUND_HALF_EVEN`, `Emin = -999999`,
`Emax = 999999`, `Overflow` trapped).  `Option.none` models the raised
`decimal.Overflow`: the rounded quotient's adjusted exponent (carry
included: the coefficient before stripping has 28 digits, so the
adjusted exponent is `divE1 + 27`) exceeds `Emax`.  A result whose
exponent falls below `Etiny` is subnormal and is re-rounded half-even
at exponent `Etiny` — equivalently, the exact quotient
`a.coeff·10^t / b.coeff` is rounded at `Etiny`, which the scaling by
`10^(t - Etiny)` below expresses with natural-number arithmetic
(exactly one of the two `toNat` exponents is nonzero).  The re-rounded
coefficient may be `0`: underflow to `0E-1000026`, not trapped. -/
def pyDiv (a b : PyDecimal) : Option PyDecimal :=
  if Emax < divE1 a.coeff b.coeff + 27 + (a.exp - b.exp) then Option.none
  else if (divNM a.coeff b.coeff 0).2 + (a.exp - b.exp) < Etiny then
    some ⟨xor a.sign b.sign,
      roundHE (a.coeff * 10 ^ ((a.exp - b.exp) - Etiny).toNat)
        (b.coeff * 10 ^ (Etiny - (a.exp - b.exp)).toNat), Etiny⟩
  else some (pyDivRes a b)

def digitChar (d : Nat) : Char := Char.ofNat (48 + d)

def isDig (c : Char) : Bool := decide (48 ≤ c.toNat ∧ c.toNat ≤ 57)

def digVal (c : Char) : Nat := c.toNat - 48

/-- Decimal digits of `n`, least significant first (fuelled; `n` is
always enough fuel). -/
def natDigitsRev : Nat → Nat → List Nat
  | 0, _ => []
  | f + 1, n => if n = 0 then [] else n % 10 :: natDigitsRev f (n / 10)

/-- Decimal digits of `n`, most significant first; `[0]` for `0`. -/
def digitsM (n : Nat) : List Nat :=
  if n = 0 then [0] else (natDigitsRev n n).reverse

/-- Value of a most-significant-first digit list. -/
def digitsVal (ds : List Nat) : Nat := ds.foldl (fun a d => 10 * a + d) 0

/-- Exponent suffix of scientific notation: always a sign, then the
digits of the adjusted exponent. -/
def expChars (adj : Int) : List Char :=
  (if adj < 0 then '-' else '+') :: (digitsM adj.natAbs).map digitChar

/-- `str()` of a finite decimal, as a character list (GDA
to-scientific-string). -/
def toSciChars (d : PyDecimal) : List Char :=
  let ds := digitsM d.coeff
  let adj : Int := d.exp + ds.length - 1
  let body :=
    if d.exp ≤ 0 ∧ -6 ≤ adj then
      if d.exp = 0 then ds.map digitChar
      else if 0 ≤ adj then
        (ds.take (adj.toNat + 1)).map digitChar ++
          '.' :: (ds.drop (adj.toNat + 1)).map digitChar
      else '0' :: '.' :: (List.replicate (-adj - 1).toNat '0' ++ ds.map digitChar)
    else
      match ds with
      | [] => []
      | d0 :: rest =>
        digitChar d0 ::
          ((if rest.isEmpty then [] else '.' :: rest.map digitChar) ++ 'E' :: expChars adj)
  if d.sign then '-' :: body else body

def toSciString (d : PyDecimal) : String := ⟨toSciChars d⟩

/-- Strip one leading sign character, returning (negative?, rest). -/
def stripSign (cs : List Char) : Bool × List Char :=
  match cs with
  | [] => (false, [])
  | c :: r => if c = '-' then (true, r) else if c = '+' then (false, r) else (false, c :: r)

/-- Split a maximal run of leading digit characters from the rest. -/
def splitDigits : List Char → List Nat × List Char
  | [] => ([], [])
  | c :: cs =>
    if isDig c then
      let p := splitDigits cs
      (digVal c :: p.1, p.2)
    else ([], c :: cs)

/-- Fractional part after an optional decimal point. -/
def parseFrac (cs : List Char) : List Nat × List Char :=
  match cs with
  | [] => ([], [])
  | c :: r => if c = '.' then splitDigits r else ([], c :: r)

/-- Signed exponent digits after `E`/`e`; the whole rest must be
consumed. -/
def parseExpChars (cs : List Char) : Option Int :=
  let s := stripSign cs
  let p := splitDigits s.2
  if p.1 = [] ∨ p.2 ≠ [] then none
  else some (if s.1 then -(digitsVal p.1 : Int) else (digitsVal p.1 : Int))

/-- The `Decimal(string)` constructor on finite numeric literals:
`[sign] digits [. digits] [(e|E) [sign] digits]`, at least one
coefficient digit. -/
def parseChars (cs : List Char) : Option PyDecimal :=
  let s1 := stripSign cs
  let ip := splitDigits s1.2
  let fp := parseFrac ip.2
  if ip.1 = [] ∧ fp.1 = [] then none
  else
    let coeff := digitsVal (ip.1 ++ fp.1)
    let fexp : Int := -(fp.1.length : Int)
    match fp.2 with
    | [] => some ⟨s1.1, coeff, fexp⟩
    | c :: r =>
      if c = 'e' ∨ c = 'E' then (parseExpChars r).map fun k => ⟨s1.1, coeff, fexp + k⟩
      else none

def parseDec (s : String) : Option PyDecimal := parseChars s.data

/-- Heads of the rest after a digit run must not be digits. -/
def headNonDigit : List Char → Bool
  | [] => true
  | c :: _ => !(isDig c)

inductive PyVal where
  | str (s : String)
  | dec (d : PyDecimal)
deriving DecidableEq, Repr

/-- `DecimalAnnotation(value)` (beanie's annotated `Decimal`): the
identity on a `Decimal`, the `Decimal` constructor on a string;
`Option.none` models the `InvalidOperation` exception on a bad
literal. -/
def decimalOfVal : PyVal → Option PyDecimal
  | .str s => parseDec s
  | .dec d => some d

/-- Exceptions the pipeline can raise: `TypeError` (unpacking `None`
with `**`), pydantic `ValidationError` (missing field / unparsable
field value, carrying the first failing field in declaration order),
`decimal.InvalidOperation`, `decimal.DivisionByZero`,
`decimal.Overflow` (all three trapped by the default context), and the
`JSONDecodeError`/`KeyError` a 2xx response body that fails
`response.json()['data']['rates']` raises inside the fetch stage
(caught by none of the `except httpx.*` clauses). -/
inductive PyErr where
  | typeError
  | validationMissing (field : String)
  | validationType (field : String)
  | invalidOperation
  | divisionByZero
  | overflow
  | malformedBody
deriving DecidableEq, Repr

abbrev RawMap := List (String × PyVal)

/-- What `fetch_exchange_rate` evaluates to: the `data.rates` mapping on
success, or Python `None` (the swallowed-exception fall-through). -/
inductive FetchReturn where
  | rates (m : RawMap)
  | nothing
deriving DecidableEq, Repr

/-- Outcome of the HTTP GET against
`api.coinbase.com/v2/exchange-rates?currency=ETB`: a 2xx response whose
body yields a `data.rates` mapping, a 2xx response whose body fails
`response.json()['data']['rates']` (not valid JSON, or the keys
absent), a non-2xx status (for which `raise_for_status` raises
`httpx.HTTPStatusError`), or a transport-level failure
(`httpx.HTTPError`). -/
inductive HttpResult where
  | ok (rates : RawMap)
  | okMalformed
  | status (code : Nat) (reason : String)
  | transport (msg : String)
deriving DecidableEq, Repr

structure FetchResult where
  ret : FetchReturn
  log : List String
deriving DecidableEq, Repr

/-- `fetch_exchange_rate`: returns the rates dict on success; on any
`httpx` error it logs a diagnostic and falls through, returning `None`
— no error value is returned to the caller.  The body extraction
`response.json()['data']['rates']` is outside every `except` clause
(they all name `httpx` exception classes), so a malformed 2xx body
raises out of the function: the `Except.error` case. -/
def fetch_exchange_rate : HttpResult → Except PyErr FetchResult
  | .ok m => .ok ⟨.rates m, []⟩
  | .okMalformed => .error .malformedBody
  | .status c reason => .ok ⟨.nothing, ["Status Error: " ++ toString c ++ " - " ++ reason]⟩
  | .transport m => .ok ⟨.nothing, ["HTTP Exception: " ++ m]⟩

/-- One pydantic field: present in the dict and coercible to `Decimal`.
(pydantic collects all failing fields into one `ValidationError`; the
embedding carries the first failing field in declaration order, which
is the full information whenever a single field is at fault.) -/
def getField (m : RawMap) (name : String) : Except PyErr PyDecimal :=
  match m.lookup name with
  | Option.none => .error (.validationMissing name)
  | some v =>
    match decimalOfVal v with
    | Option.none => .error (.validationType name)
    | some d => .ok d

/-- `clean_exchange_rate`: `{**dict(FiatRate(**rate)), **dict(CryptoRate(**rate))}`.
Validates the six declared fields (extra keys are dropped) and returns
the merged dict in declaration order; called with `None` (a failed
fetch), the `**` unpacking raises `TypeError`. -/
def clean_exchange_rate : FetchReturn → Except PyErr (List (String × PyDecimal))
  | .nothing => .error .typeError
  | .rates m => do
    let aed ← getField m "AED"
    let eur ← getField m "EUR"
    let usd ← getField m "USD"
    let btc ← getField m "BTC"
    let eth ← getField m "ETH"
    let sol ← getField m "SOL"
    pure [("AED", aed), ("EUR", eur), ("USD", usd), ("BTC", btc), ("ETH", eth), ("SOL", sol)]

def toPyVals (m : List (String × PyDecimal)) : RawMap :=
  m.map fun p => (p.1, PyVal.dec p.2)

/-- One entry of the `invert_exchange_rate` comprehension:
`str(1/DecimalAnnotation(value))`.  Division of `Decimal(1)` by zero
raises `decimal.DivisionByZero` (the default context traps it; no
`Infinity`/`NaN` result is produced), and a quotient beyond the
context's `Emax` raises the (also trapped) `decimal.Overflow`. -/
def invertVal (v : PyVal) : Except PyErr String :=
  match decimalOfVal v with
  | Option.none => .error .invalidOperation
  | some d =>
    if d.coeff = 0 then .error .divisionByZero
    else
      match pyDiv one d with
      | Option.none => .error .overflow
      | some y => .ok (toSciString y)

/-- `invert_exchange_rate`: `{key: str(1/DecimalAnnotation(value)) for
key, value in filtered_rate.items()}`; items are processed in order and
the first raising entry aborts the comprehension.  (The dicts fed to it
have distinct keys, so building a dict and building the association
list agree.) -/
def invert_exchange_rate : RawMap → Except PyErr (List (String × String))
  | [] => .ok []
  | (k, v) :: rest => do
    let s ← invertVal v
    let out ← invert_exchange_rate rest
    pure ((k, s) :: out)

/-- External state `store_exchange_rate` depends on: presence of the
`.env` file in the working directory, the resolved value of the `MONGO`
variable after `load_dotenv`, and success of the connection/insert
operations against MongoDB. -/
structure Env where
  dotenvExists : Bool
  mongo : Option String
  connectOk : Bool
  fiatInsertOk : Bool
  cryptoInsertOk : Bool
deriving DecidableEq, Repr

/-- A persisted document (timestamp defaulted at insert time is not
modelled; the rates payload is). -/
inductive Record where
  | fiat (aed eur usd : PyDecimal)
  | crypto (btc eth sol : PyDecimal)
deriving DecidableEq, Repr

structure StoreResult where
  inserted : List Record
  log : List String
deriving DecidableEq, Repr

def getFieldStr (m : List (String × String)) (name : String) : Except PyErr PyDecimal :=
  getField (m.map fun p => (p.1, PyVal.str p.2)) name

/-- `Fiat(rates=FiatRate(**inverted_rate))`. -/
def fiatOf (m : List (String × String)) : Except PyErr Record := do
  let aed ← getFieldStr m "AED"
  let eur ← getFieldStr m "EUR"
  let usd ← getFieldStr m "USD"
  pure (.fiat aed eur usd)

/-- `Crypto(rates=CryptoRate(**inverted_rate))`. -/
def cryptoOf (m : List (String × String)) : Except PyErr Record := do
  let btc ← getFieldStr m "BTC"
  let eth ← getFieldStr m "ETH"
  let sol ← getFieldStr m "SOL"
  pure (.crypto btc eth sol)

def envFileMsg : String := "File Error: the .env file is missing"

def mongoMsg : String := "Environment variable Error: the MONGO variable is not set"

/-- `logging.critical(f'Database connection Error: {e}')`; the
interpolated exception text is elided. -/
def dbErrMsg : String := "Database connection Error"

/-- `store_exchange_rate`: everything runs inside one
`try/except Exception` block.  In order: the `.env` existence check
(early return), the `MONGO` truthiness check (early return; `not MONGO`
is true for both an unset variable and an empty string), connection and
`init_beanie`, `Fiat` construction, `await fiat.insert()`, `Crypto`
construction, `await crypto.insert()`.  Any exception after a
successful fiat insert leaves the fiat document persisted.  The
function never raises: failures are logged and swallowed. -/
def store_exchange_rate (env : Env) (inverted : List (String × String)) : StoreResult :=
  if env.dotenvExists = false then ⟨[], [envFileMsg]⟩
  else if env.mongo.getD "" = "" then ⟨[], [mongoMsg]⟩
  else if env.connectOk = false then ⟨[], [dbErrMsg]⟩
  else
    match fiatOf inverted with
    | .error _ => ⟨[], [dbErrMsg]⟩
    | .ok f =>
      if env.fiatInsertOk = false then ⟨[], [dbErrMsg]⟩
      else
        match cryptoOf inverted with
        | .error _ => ⟨[f], [dbErrMsg]⟩
        | .ok cr =>
          if env.cryptoInsertOk = false then ⟨[f], [dbErrMsg]⟩
          else ⟨[f, cr], []⟩

inductive Stage where
  | fetch
  | validate
  | invert
  | store
deriving DecidableEq, Repr

instance {α : Type} [DecidableEq α] : DecidableEq (Except PyErr α) := fun x y =>
  match x, y with
  | .error a, .error b =>
    if h : a = b then isTrue (h ▸ rfl)
    else isFalse (fun hc => h (Except.error.inj hc))
  | .ok a, .ok b =>
    if h : a = b then isTrue (h ▸ rfl)
    else isFalse (fun hc => h (Except.ok.inj hc))
  | .error _, .ok _ => isFalse Except.noConfusion
  | .ok _, .error _ => isFalse Except.noConfusion

/-- Result of one run of `main`: the stages entered, the documents
inserted, whether the run finished normally or died on an uncaught
exception, and the log. -/
structure RunResult where
  stages : List Stage
  inserted : List Record
  outcome : Except PyErr Unit
  log : List String
deriving DecidableEq, Repr

/-- `main`: `fetch` → `clean` → `invert` → `store` in sequence, with no
exception handling of its own.  A raising fetch (malformed 2xx body)
ends the run there; a swallowed fetch failure hands
`clean_exchange_rate` the value `None`; `invert` and `store` run only
if the previous call returned normally. -/
def mainRun (h : HttpResult) (env : Env) : RunResult :=
  match fetch_exchange_rate h with
  | .error err => ⟨[.fetch], [], .error err, []⟩
  | .ok f =>
    match clean_exchange_rate f.ret with
    | .error err => ⟨[.fetch, .validate], [], .error err, f.log⟩
    | .ok filtered =>
      match invert_exchange_rate (toPyVals filtered) with
      | .error err => ⟨[.fetch, .validate, .invert], [], .error err, f.log⟩
      | .ok inverted =>
        let s := store_exchange_rate env inverted
        ⟨[.fetch, .validate, .invert, .store], s.inserted, .ok (), f.log ++ s.log⟩

/-- The raw map of the end-to-end test vector, exactly as in the spec. -/
def sampleRaw : RawMap :=
  [("USD", .str "56.0"), ("EUR", .str "61.0"), ("AED", .str "15.2"),
   ("BTC", .str "0.000005"), ("ETH", .str "0.00015"), ("SOL", .str "0.02")]

/-- An environment in which every store step succeeds. -/
def envAllOk : Env := ⟨true, some "mongodb://localhost:27017", true, true, true⟩

/-- Inverted map used to instantiate the store-stage claims. -/
def invSample : List (String × String) :=
  [("AED", "2"), ("EUR", "4"), ("USD", "5"), ("BTC", "10"), ("ETH", "20"), ("SOL", "50")]

/-- Raw map with a zero BTC rate, and the mapping it cleans to. -/
def rawZero : RawMap :=
  [("AED", .str "1"), ("EUR", .str "2"), ("USD", .str "4"),
   ("BTC", .str "0"), ("ETH", .str "5"), ("SOL", .str "8")]

def cleanedZero : List (String × PyDecimal) :=
  [("AED", ⟨false, 1, 0⟩), ("EUR", ⟨false, 2, 0⟩), ("USD", ⟨false, 4, 0⟩),
   ("BTC", ⟨false, 0, 0⟩), ("ETH", ⟨false, 5, 0⟩), ("SOL", ⟨false, 8, 0⟩)]

/-- `sampleRaw` with the BTC entry removed. -/
def rawNoBtc : RawMap :=
  [("USD", .str "56.0"), ("EUR", .str "61.0"), ("AED", .str "15.2"),
   ("ETH", .str "0.00015"), ("SOL", .str "0.02")]

/-- The mapping `sampleRaw` cleans to. -/
def cleanedSample : List (String × PyDecimal) :=
  [("AED", ⟨false, 152, -1⟩), ("EUR", ⟨false, 610, -1⟩), ("USD", ⟨false, 560, -1⟩),
   ("BTC", ⟨false, 5, -6⟩), ("ETH", ⟨false, 15, -5⟩), ("SOL", ⟨false, 2, -2⟩)]

/-- An environment whose database connection fails; both inserts would
succeed if reached. -/
def envConnFail : Env := ⟨true, some "mongodb://localhost:27017", false, true, true⟩

/-- All six codes present and positive, but the AED rate `1E-1000001`
is so small that its reciprocal overflows the default context. -/
def rawOverflow : RawMap :=
  [("AED", .str "1E-1000001"), ("EUR", .str "2"), ("USD", .str "4"),
   ("BTC", .str "5"), ("ETH", .str "8"), ("SOL", .str "10")]

/-- The mapping `rawOverflow` cleans to. -/
def cleanedOverflow : List (String × PyDecimal) :=
  [("AED", ⟨false, 1, -1000001⟩), ("EUR", ⟨false, 2, 0⟩), ("USD", ⟨false, 4, 0⟩),
   ("BTC", ⟨false, 5, 0⟩), ("ETH", ⟨false, 8, 0⟩), ("SOL", ⟨false, 10, 0⟩)]

/-- A mapping with a zero BTC rate preceded by an entry whose
reciprocal overflows: inversion dies on the AED entry first. -/
def cleanedZeroOverflow : List (String × PyDecimal) :=
  [("AED", ⟨false, 1, -1000001⟩), ("BTC", ⟨false, 0, 0⟩)]

/-! ## Properties -/

theorem log10F_spec (f : Nat) : ∀ n : Nat, 0 < n → n ≤ f →
    10 ^ log10F f n ≤ n ∧ n < 10 ^ (log10F f n + 1) := by
  induction f with
  | zero => intro n hn hf; omega
  | succ f ih =>
    intro n hn hf
    by_cases h10 : n < 10
    · simp only [log10F, if_pos h10]
      exact ⟨by simpa using hn, by simpa using h10⟩
    · have hq : 0 < n / 10 := Nat.div_pos (le_of_not_lt h10) (by norm_num)
      have hqf : n / 10 ≤ f := by
        have := Nat.div_lt_self hn (by norm_num : 1 < 10)
        omega
      obtain ⟨h1, h2⟩ := ih (n / 10) hq hqf
      simp only [log10F, if_neg h10]
      constructor
      · calc 10 ^ (log10F f (n / 10) + 1) = 10 ^ log10F f (n / 10) * 10 := by ring
        _ ≤ (n / 10) * 10 := by exact Nat.mul_le_mul_right 10 h1
        _ ≤ n := Nat.div_mul_le_self n 10
      · calc n < (n / 10 + 1) * 10 := by
              have := Nat.div_add_mod n 10
              have : n % 10 < 10 := Nat.mod_lt n (by norm_num)
              omega
        _ ≤ 10 ^ (log10F f (n / 10) + 1) * 10 := by
              exact Nat.mul_le_mul_right 10 h2
        _ = 10 ^ (log10F f (n / 10) + 1 + 1) := by ring

theorem nlog10_spec (n : Nat) (h : 0 < n) :
    10 ^ nlog10 n ≤ n ∧ n < 10 ^ (nlog10 n + 1) :=
  log10F_spec n n h le_rfl

theorem gePow10_true_iff (N M : Nat) (k : Int) (hM : 0 < M) :
    gePow10 N M k = true ↔ (10 : ℚ) ^ k * M ≤ N := by
  unfold gePow10
  split
  case isTrue h =>
    rw [decide_eq_true_eq]
    have hcast : ((M * 10 ^ k.toNat : ℕ) : ℚ) = (10 : ℚ) ^ k * M := by
      push_cast
      rw [← zpow_natCast (10 : ℚ) k.toNat, Int.toNat_of_nonneg h]
      ring
    constructor
    · intro hle
      calc (10 : ℚ) ^ k * (M : ℚ) = ((M * 10 ^ k.toNat : ℕ) : ℚ) := hcast.symm
        _ ≤ (N : ℚ) := by exact_mod_cast hle
    · intro hle
      have : ((M * 10 ^ k.toNat : ℕ) : ℚ) ≤ (N : ℚ) := by rw [hcast]; exact hle
      exact_mod_cast this
  case isFalse h =>
    rw [decide_eq_true_eq]
    have hk' : (0 : ℤ) ≤ -k := by omega
    have hpos : (0 : ℚ) < (10 : ℚ) ^ (-k) := by positivity
    have hcast : ((N * 10 ^ (-k).toNat : ℕ) : ℚ) = (N : ℚ) * (10 : ℚ) ^ (-k) := by
      push_cast
      rw [← zpow_natCast (10 : ℚ) (-k).toNat, Int.toNat_of_nonneg hk']
    have hmul : (10 : ℚ) ^ k * (10 : ℚ) ^ (-k) = 1 := by
      rw [← zpow_add₀ (by norm_num : (10 : ℚ) ≠ 0)]
      simp
    constructor
    · intro hle
      have h1 : (M : ℚ) ≤ (N : ℚ) * (10 : ℚ) ^ (-k) := by
        rw [← hcast]; exact_mod_cast hle
      have h2 : (10 : ℚ) ^ k * (M : ℚ) ≤ (10 : ℚ) ^ k * ((N : ℚ) * (10 : ℚ) ^ (-k)) :=
        mul_le_mul_of_nonneg_left h1 (by positivity)
      calc (10 : ℚ) ^ k * (M : ℚ) ≤ (10 : ℚ) ^ k * ((N : ℚ) * (10 : ℚ) ^ (-k)) := h2
        _ = (N : ℚ) * ((10 : ℚ) ^ k * (10 : ℚ) ^ (-k)) := by ring
        _ = N := by rw [hmul]; ring
    · intro hle
      have h1 : (M : ℚ) ≤ (N : ℚ) * (10 : ℚ) ^ (-k) := by
        calc (M : ℚ) = ((10 : ℚ) ^ k * (M : ℚ)) * (10 : ℚ) ^ (-k) := by
              rw [show ((10 : ℚ) ^ k * (M : ℚ)) * (10 : ℚ) ^ (-k) =
                (M : ℚ) * ((10 : ℚ) ^ k * (10 : ℚ) ^ (-k)) from by ring, hmul, mul_one]
          _ ≤ (N : ℚ) * (10 : ℚ) ^ (-k) := mul_le_mul_of_nonneg_right hle (le_of_lt hpos)
      rw [← hcast] at h1
      exact_mod_cast h1

theorem divD_bounds (N M : Nat) (hN : 0 < N) (hM : 0 < M) :
    (10 : ℚ) ^ divD N M * M ≤ N ∧ (N : ℚ) < (10 : ℚ) ^ (divD N M + 1) * M := by
  obtain ⟨ha1, ha2⟩ := nlog10_spec N hN
  obtain ⟨hb1, hb2⟩ := nlog10_spec M hM
  set a := nlog10 N with hadef
  set b := nlog10 M with hbdef
  have hQa1 : (10 : ℚ) ^ (a : ℤ) ≤ N := by
    rw [zpow_natCast]; exact_mod_cast ha1
  have hQa2 : (N : ℚ) < (10 : ℚ) ^ ((a : ℤ) + 1) := by
    rw [show ((a : ℤ) + 1) = ((a + 1 : ℕ) : ℤ) by push_cast; ring, zpow_natCast]
    exact_mod_cast ha2
  have hQb1 : (10 : ℚ) ^ (b : ℤ) ≤ M := by
    rw [zpow_natCast]; exact_mod_cast hb1
  have hQb2 : (M : ℚ) < (10 : ℚ) ^ ((b : ℤ) + 1) := by
    rw [show ((b : ℤ) + 1) = ((b + 1 : ℕ) : ℤ) by push_cast; ring, zpow_natCast]
    exact_mod_cast hb2
  have hten : (10 : ℚ) ≠ 0 := by norm_num
  have hkdef : divK N M = (a : ℤ) - b := by rw [hadef, hbdef]; rfl
  unfold divD
  split
  case isTrue hge =>
    constructor
    · rw [hkdef] at hge ⊢
      exact (gePow10_true_iff N M _ hM).mp hge
    · rw [hkdef]
      have hsplit : (10 : ℚ) ^ ((a : ℤ) - b + 1) * (10 : ℚ) ^ (b : ℤ) = (10 : ℚ) ^ ((a : ℤ) + 1) := by
        rw [← zpow_add₀ hten]
        congr 1
        ring
      calc (N : ℚ) < (10 : ℚ) ^ ((a : ℤ) + 1) := hQa2
        _ = (10 : ℚ) ^ ((a : ℤ) - b + 1) * (10 : ℚ) ^ (b : ℤ) := hsplit.symm
        _ ≤ (10 : ℚ) ^ ((a : ℤ) - b + 1) * M := by
            have hp : (0 : ℚ) < (10 : ℚ) ^ ((a : ℤ) - b + 1) := by positivity
            exact mul_le_mul_of_nonneg_left hQb1 (le_of_lt hp)
  case isFalse hlt =>
    have hlt' : ¬ ((10 : ℚ) ^ divK N M * M ≤ N) := by
      intro hc
      exact hlt ((gePow10_true_iff N M _ hM).mpr hc)
    push_neg at hlt'
    rw [hkdef] at hlt'
    constructor
    · rw [hkdef]
      have key : (10 : ℚ) ^ ((a : ℤ) - b - 1) * M < (10 : ℚ) ^ (a : ℤ) := by
        have h1 : (10 : ℚ) ^ ((a : ℤ) - b - 1) * M <
            (10 : ℚ) ^ ((a : ℤ) - b - 1) * (10 : ℚ) ^ ((b : ℤ) + 1) := by
          have hp : (0 : ℚ) < (10 : ℚ) ^ ((a : ℤ) - b - 1) := by positivity
          exact mul_lt_mul_of_pos_left hQb2 hp
        have h2 : (10 : ℚ) ^ ((a : ℤ) - b - 1) * (10 : ℚ) ^ ((b : ℤ) + 1) = (10 : ℚ) ^ (a : ℤ) := by
          rw [← zpow_add₀ hten]
          congr 1
          ring
        linarith
      linarith
    · rw [hkdef]
      have hx : ((a : ℤ) - b - 1 + 1) = (a : ℤ) - b := by ring
      rw [hx]
      exact hlt'

theorem roundHE_spec (N M : Nat) (hM : 0 < M) :
    |(roundHE N M : ℚ) * M - N| * 2 ≤ M := by
  have hMQ : (0 : ℚ) < M := by exact_mod_cast hM
  have hmod := Nat.div_add_mod N M
  have hrlt : N % M < M := Nat.mod_lt N hM
  have hNQ : (N : ℚ) = M * (N / M : ℕ) + (N % M : ℕ) := by exact_mod_cast hmod.symm
  have hrQ : ((N % M : ℕ) : ℚ) < M := by exact_mod_cast hrlt
  have hrQ0 : (0 : ℚ) ≤ ((N % M : ℕ) : ℚ) := by positivity
  unfold roundHE
  split
  case isTrue h1 =>
    have h1Q : (M : ℚ) < 2 * ((N % M : ℕ) : ℚ) := by exact_mod_cast h1
    have key : ((N / M + 1 : ℕ) : ℚ) * M - N = (M : ℚ) - (N % M : ℕ) := by
      rw [hNQ]; push_cast; ring
    rw [key, abs_of_nonneg (by linarith)]
    linarith
  case isFalse h1 =>
    split
    case isTrue h2 =>
      have h2Q : 2 * ((N % M : ℕ) : ℚ) < M := by exact_mod_cast h2
      have key : ((N / M : ℕ) : ℚ) * M - N = -((N % M : ℕ) : ℚ) := by
        rw [hNQ]; push_cast; ring
      rw [key, abs_neg, abs_of_nonneg hrQ0]
      linarith
    case isFalse h2 =>
      have htie : 2 * (N % M) = M := by omega
      have htieQ : 2 * ((N % M : ℕ) : ℚ) = M := by exact_mod_cast htie
      rcases Nat.mod_two_eq_zero_or_one (N / M) with hq | hq <;> rw [hq]
      · have key : ((N / M + 0 : ℕ) : ℚ) * M - N = -((N % M : ℕ) : ℚ) := by
          rw [hNQ]; push_cast; ring
        rw [key, abs_neg, abs_of_nonneg hrQ0]
        linarith
      · have key : ((N / M + 1 : ℕ) : ℚ) * M - N = (M : ℚ) - (N % M : ℕ) := by
          rw [hNQ]; push_cast; ring
        rw [key, abs_of_nonneg (by linarith)]
        linarith

theorem divM'_pos (N M : Nat) (hM : 0 < M) : 0 < divM' N M := by
  unfold divM'
  split
  · exact Nat.mul_pos hM (pow_pos (by norm_num) _)
  · exact hM

theorem divN'_pos (N M : Nat) (hN : 0 < N) : 0 < divN' N M := by
  unfold divN'
  split
  · exact hN
  · exact Nat.mul_pos hN (pow_pos (by norm_num) _)

theorem div_scale (N M : Nat) :
    (divN' N M : ℚ) * M * (10 : ℚ) ^ divE N M = (N : ℚ) * divM' N M := by
  have hten : (10 : ℚ) ≠ 0 := by norm_num
  by_cases h : 0 ≤ divE N M
  · simp only [divN', divM', if_pos h]
    push_cast
    rw [← zpow_natCast (10 : ℚ) (divE N M).toNat, Int.toNat_of_nonneg h]
    ring
  · simp only [divN', divM', if_neg h]
    push_cast
    rw [← zpow_natCast (10 : ℚ) (-divE N M).toNat,
      Int.toNat_of_nonneg (by omega : (0 : ℤ) ≤ -divE N M)]
    have hmul : (10 : ℚ) ^ (-divE N M) * (10 : ℚ) ^ divE N M = 1 := by
      rw [← zpow_add₀ hten]
      simp
    calc (N : ℚ) * (10 : ℚ) ^ (-divE N M) * M * (10 : ℚ) ^ divE N M
        = (N : ℚ) * M * ((10 : ℚ) ^ (-divE N M) * (10 : ℚ) ^ divE N M) := by ring
      _ = (N : ℚ) * M := by rw [hmul, mul_one]

theorem divR_bounds (N M : Nat) (hN : 0 < N) (hM : 0 < M) :
    (10 : ℚ) ^ (27 : ℤ) * divM' N M ≤ divN' N M ∧
      (divN' N M : ℚ) < (10 : ℚ) ^ (28 : ℤ) * divM' N M := by
  obtain ⟨hd1, hd2⟩ := divD_bounds N M hN hM
  have hten : (10 : ℚ) ≠ 0 := by norm_num
  have hEdef : divE N M = divD N M - 27 := rfl
  by_cases h : 0 ≤ divE N M
  · simp only [divN', divM', if_pos h]
    have hcast : ((M * 10 ^ (divE N M).toNat : ℕ) : ℚ) = (M : ℚ) * (10 : ℚ) ^ divE N M := by
      push_cast
      rw [← zpow_natCast (10 : ℚ) (divE N M).toNat, Int.toNat_of_nonneg h]
    constructor
    · rw [hcast]
      calc (10 : ℚ) ^ (27 : ℤ) * ((M : ℚ) * (10 : ℚ) ^ divE N M)
          = (10 : ℚ) ^ ((27 : ℤ) + divE N M) * M := by
            rw [zpow_add₀ hten]; ring
        _ = (10 : ℚ) ^ divD N M * M := by rw [hEdef]; ring_nf
        _ ≤ N := hd1
    · rw [hcast]
      calc (N : ℚ) < (10 : ℚ) ^ (divD N M + 1) * M := hd2
        _ = (10 : ℚ) ^ ((28 : ℤ) + divE N M) * M := by rw [hEdef]; ring_nf
        _ = (10 : ℚ) ^ (28 : ℤ) * ((M : ℚ) * (10 : ℚ) ^ divE N M) := by
            rw [zpow_add₀ hten]; ring
  · simp only [divN', divM', if_neg h]
    have hcast : ((N * 10 ^ (-divE N M).toNat : ℕ) : ℚ) = (N : ℚ) * (10 : ℚ) ^ (-divE N M) := by
      push_cast
      rw [← zpow_natCast (10 : ℚ) (-divE N M).toNat,
        Int.toNat_of_nonneg (by omega : (0 : ℤ) ≤ -divE N M)]
    have hpos : (0 : ℚ) < (10 : ℚ) ^ (-divE N M) := by positivity
    have hp1 : (10 : ℚ) ^ divD N M * (10 : ℚ) ^ (-divE N M) = (10 : ℚ) ^ (27 : ℤ) := by
      rw [← zpow_add₀ hten, hEdef]
      congr 1
      ring
    have hp2 : (10 : ℚ) ^ (divD N M + 1) * (10 : ℚ) ^ (-divE N M) = (10 : ℚ) ^ (28 : ℤ) := by
      rw [← zpow_add₀ hten, hEdef]
      congr 1
      ring
    constructor
    · rw [hcast]
      calc (10 : ℚ) ^ (27 : ℤ) * M = (10 : ℚ) ^ divD N M * M * (10 : ℚ) ^ (-divE N M) := by
            linear_combination (-(M : ℚ)) * hp1
        _ ≤ (N : ℚ) * (10 : ℚ) ^ (-divE N M) :=
            mul_le_mul_of_nonneg_right hd1 (le_of_lt hpos)
    · rw [hcast]
      calc (N : ℚ) * (10 : ℚ) ^ (-divE N M)
            < ((10 : ℚ) ^ (divD N M + 1) * M) * (10 : ℚ) ^ (-divE N M) :=
            mul_lt_mul_of_pos_right hd2 hpos
        _ = (10 : ℚ) ^ (28 : ℤ) * M := by
            linear_combination (M : ℚ) * hp2

theorem divQ_bounds (N M : Nat) (hN : 0 < N) (hM : 0 < M) :
    10 ^ 27 ≤ divQ N M ∧ divQ N M ≤ 10 ^ 28 := by
  have hM' := divM'_pos N M hM
  have hMQ : (0 : ℚ) < divM' N M := by exact_mod_cast hM'
  obtain ⟨hr1, hr2⟩ := divR_bounds N M hN hM
  have herr' : |(divQ N M : ℚ) * divM' N M - divN' N M| * 2 ≤ (divM' N M : ℚ) :=
    roundHE_spec (divN' N M) (divM' N M) hM'
  have habs := abs_le.mp (show |(divQ N M : ℚ) * divM' N M - divN' N M| ≤
    (divM' N M : ℚ) / 2 by linarith)
  have hz27 : (10 : ℚ) ^ (27 : ℤ) = ((10 ^ 27 : ℕ) : ℚ) := by norm_num
  have hz28 : (10 : ℚ) ^ (28 : ℤ) = ((10 ^ 28 : ℕ) : ℚ) := by norm_num
  rw [hz27] at hr1
  rw [hz28] at hr2
  constructor
  · by_contra hc
    push_neg at hc
    have hcQ : ((divQ N M : ℕ) : ℚ) + 1 ≤ ((10 ^ 27 : ℕ) : ℚ) := by exact_mod_cast hc
    have hprod := mul_le_mul_of_nonneg_right hcQ (le_of_lt hMQ)
    linarith [habs.1]
  · by_contra hc
    push_neg at hc
    have hcQ : ((10 ^ 28 : ℕ) : ℚ) + 1 ≤ ((divQ N M : ℕ) : ℚ) := by exact_mod_cast hc
    have hprod := mul_le_mul_of_nonneg_right hcQ (le_of_lt hMQ)
    linarith [habs.2]

theorem divQ_exact (N M : Nat) (hM : 0 < M) (hex : divN' N M % divM' N M = 0) :
    (divQ N M : ℚ) * divM' N M = divN' N M := by
  have hM' := divM'_pos N M hM
  have hq : divQ N M = divN' N M / divM' N M := by
    unfold divQ roundHE
    rw [hex]
    rw [if_neg (show ¬ (divM' N M < 2 * 0) by omega),
      if_pos (show 2 * 0 < divM' N M by omega)]
  rw [hq]
  have hdvd : divM' N M ∣ divN' N M := Nat.dvd_of_mod_eq_zero hex
  exact_mod_cast Nat.div_mul_cancel hdvd

theorem divQ_err (N M : Nat) (hN : 0 < N) (hM : 0 < M) :
    |(divQ N M : ℚ) * (10 : ℚ) ^ divE N M * M - N| ≤
      1 / 2 * (10 : ℚ) ^ divE N M * M := by
  have hM' := divM'_pos N M hM
  have hMQ : (0 : ℚ) < divM' N M := by exact_mod_cast hM'
  have hMQ0 : (0 : ℚ) < M := by exact_mod_cast hM
  have hEpos : (0 : ℚ) < (10 : ℚ) ^ divE N M := by positivity
  have herr' : |(divQ N M : ℚ) * divM' N M - divN' N M| * 2 ≤ (divM' N M : ℚ) :=
    roundHE_spec (divN' N M) (divM' N M) hM'
  have hscale := div_scale N M
  have key : |(divQ N M : ℚ) * (10 : ℚ) ^ divE N M * M - N| * divM' N M =
      (10 : ℚ) ^ divE N M * M * |(divQ N M : ℚ) * divM' N M - divN' N M| := by
    have h1 : ((divQ N M : ℚ) * (10 : ℚ) ^ divE N M * M - N) * divM' N M =
        ((10 : ℚ) ^ divE N M * M) * ((divQ N M : ℚ) * divM' N M - divN' N M) := by
      linear_combination hscale
    calc |(divQ N M : ℚ) * (10 : ℚ) ^ divE N M * M - N| * divM' N M
        = |((divQ N M : ℚ) * (10 : ℚ) ^ divE N M * M - N) * divM' N M| := by
          rw [abs_mul, abs_of_pos hMQ]
      _ = |((10 : ℚ) ^ divE N M * M) * ((divQ N M : ℚ) * divM' N M - divN' N M)| := by
          rw [h1]
      _ = ((10 : ℚ) ^ divE N M * M) * |(divQ N M : ℚ) * divM' N M - divN' N M| := by
          rw [abs_mul, abs_of_pos (by positivity : (0 : ℚ) < (10 : ℚ) ^ divE N M * M)]
  have h3 := mul_le_mul_of_nonneg_left herr'
    (show (0 : ℚ) ≤ (10 : ℚ) ^ divE N M * M / 2 by positivity)
  have step : |(divQ N M : ℚ) * (10 : ℚ) ^ divE N M * M - N| * divM' N M ≤
      (1 / 2 * (10 : ℚ) ^ divE N M * M) * divM' N M := by
    rw [key]
    nlinarith [h3]
  exact le_of_mul_le_mul_right step hMQ

theorem divQ1_val (N M : Nat) :
    (divQ1 N M : ℚ) * (10 : ℚ) ^ divE1 N M = (divQ N M : ℚ) * (10 : ℚ) ^ divE N M := by
  unfold divQ1 divE1
  split
  case isTrue h =>
    rw [h]
    have hz : (10 : ℚ) ^ (divE N M + 1) = (10 : ℚ) ^ divE N M * 10 := by
      rw [zpow_add₀ (by norm_num : (10 : ℚ) ≠ 0)]
      norm_num
    rw [hz]
    push_cast
    ring
  case isFalse h => rfl

theorem divQ1_lb (N M : Nat) (hN : 0 < N) (hM : 0 < M) : 10 ^ 27 ≤ divQ1 N M := by
  unfold divQ1
  split
  · exact le_refl _
  · exact (divQ_bounds N M hN hM).1

theorem divE1_ge (N M : Nat) : divE N M ≤ divE1 N M := by
  unfold divE1
  split
  · omega
  · exact le_refl _

theorem stripZeros_val (f : Nat) : ∀ (q : Nat) (e i : Int), 0 < q →
    0 < (stripZeros f q e i).1 ∧
      ((stripZeros f q e i).1 : ℚ) * (10 : ℚ) ^ (stripZeros f q e i).2 =
        (q : ℚ) * (10 : ℚ) ^ e := by
  induction f with
  | zero => intro q e i hq; exact ⟨hq, rfl⟩
  | succ f ih =>
    intro q e i hq
    by_cases hcond : e < i ∧ q % 10 = 0 ∧ q ≠ 0
    · have hdvd : 10 ∣ q := Nat.dvd_of_mod_eq_zero hcond.2.1
      have hq10 : 10 ≤ q := Nat.le_of_dvd hq hdvd
      have hqd : 0 < q / 10 := Nat.div_pos hq10 (by norm_num)
      have hstep : ((q / 10 : ℕ) : ℚ) * 10 = q := by
        exact_mod_cast Nat.div_mul_cancel hdvd
      have heq : stripZeros (f + 1) q e i =
          if e < i ∧ q % 10 = 0 ∧ q ≠ 0 then stripZeros f (q / 10) (e + 1) i
          else (q, e) := rfl
      have hrw : stripZeros (f + 1) q e i = stripZeros f (q / 10) (e + 1) i := by
        rw [heq, if_pos hcond]
      obtain ⟨hp, hv⟩ := ih (q / 10) (e + 1) i hqd
      rw [hrw]
      refine ⟨hp, ?_⟩
      rw [hv]
      have hz : (10 : ℚ) ^ (e + 1) = (10 : ℚ) ^ e * 10 := by
        rw [zpow_add₀ (by norm_num : (10 : ℚ) ≠ 0)]
        norm_num
      rw [hz]
      linear_combination (10 : ℚ) ^ e * hstep
    · have heq : stripZeros (f + 1) q e i =
          if e < i ∧ q % 10 = 0 ∧ q ≠ 0 then stripZeros f (q / 10) (e + 1) i
          else (q, e) := rfl
      have hrw : stripZeros (f + 1) q e i = (q, e) := by
        rw [heq, if_neg hcond]
      rw [hrw]
      exact ⟨hq, rfl⟩

theorem divNM_correct (N M : Nat) (i : Int) (hN : 0 < N) (hM : 0 < M) :
    0 < (divNM N M i).1 ∧
      |((divNM N M i).1 : ℚ) * (10 : ℚ) ^ (divNM N M i).2 * M - N| ≤
        (10 : ℚ) ^ (-27 : ℤ) / 2 * (((divNM N M i).1 : ℚ) * (10 : ℚ) ^ (divNM N M i).2) * M := by
  have hM' := divM'_pos N M hM
  have hMQ : (0 : ℚ) < divM' N M := by exact_mod_cast hM'
  have hMQ0 : (0 : ℚ) < M := by exact_mod_cast hM
  obtain ⟨hq27, hq28⟩ := divQ_bounds N M hN hM
  have hq27Q : ((10 ^ 27 : ℕ) : ℚ) ≤ ((divQ1 N M : ℕ) : ℚ) := by
    exact_mod_cast divQ1_lb N M hN hM
  have h27z : ((10 ^ 27 : ℕ) : ℚ) = (10 : ℚ) ^ (27 : ℤ) := by norm_num
  unfold divNM
  split
  case isTrue hex =>
    have hval : (divQ N M : ℚ) * divM' N M = divN' N M := divQ_exact N M hM hex
    have hnocarry : divQ N M ≠ 10 ^ 28 := by
      intro hc
      have hlt : (divN' N M : ℚ) < (10 : ℚ) ^ (28 : ℤ) * divM' N M := (divR_bounds N M hN hM).2
      rw [hc] at hval
      have h28z : ((10 ^ 28 : ℕ) : ℚ) = (10 : ℚ) ^ (28 : ℤ) := by norm_num
      rw [h28z] at hval
      linarith
    have hq1 : divQ1 N M = divQ N M := by unfold divQ1; rw [if_neg hnocarry]
    have he1 : divE1 N M = divE N M := by unfold divE1; rw [if_neg hnocarry]
    have hqpos : 0 < divQ1 N M := lt_of_lt_of_le (pow_pos (by norm_num) 27) (divQ1_lb N M hN hM)
    obtain ⟨hp, hveq⟩ := stripZeros_val 40 (divQ1 N M) (divE1 N M) i hqpos
    refine ⟨hp, ?_⟩
    have hexact : (divQ N M : ℚ) * (10 : ℚ) ^ divE N M * M = N := by
      have h2 := div_scale N M
      have h3 : (divQ N M : ℚ) * (10 : ℚ) ^ divE N M * M * divM' N M =
          (N : ℚ) * divM' N M := by
        calc (divQ N M : ℚ) * (10 : ℚ) ^ divE N M * M * divM' N M
            = ((divQ N M : ℚ) * divM' N M) * ((10 : ℚ) ^ divE N M * M) := by ring
          _ = (divN' N M : ℚ) * ((10 : ℚ) ^ divE N M * M) := by rw [hval]
          _ = (divN' N M : ℚ) * M * (10 : ℚ) ^ divE N M := by ring
          _ = (N : ℚ) * divM' N M := h2
      exact mul_right_cancel₀ (ne_of_gt hMQ) h3
    rw [hveq, hq1, he1, hexact]
    simp only [sub_self, abs_zero]
    positivity
  case isFalse hex =>
    have herr := divQ_err N M hN hM
    have hval := divQ1_val N M
    have hee := divE1_ge N M
    have hEmono : (10 : ℚ) ^ divE N M ≤ (10 : ℚ) ^ divE1 N M :=
      zpow_le_zpow_right₀ (by norm_num : (1 : ℚ) ≤ 10) hee
    have hq1pos : (0 : ℚ) < ((divQ1 N M : ℕ) : ℚ) := by
      rw [h27z] at hq27Q
      have : (0 : ℚ) < (10 : ℚ) ^ (27 : ℤ) := by positivity
      linarith
    refine ⟨by exact_mod_cast hq1pos, ?_⟩
    have hstep1 : |(divQ1 N M : ℚ) * (10 : ℚ) ^ divE1 N M * M - N| ≤
        1 / 2 * (10 : ℚ) ^ divE N M * M := by
      rw [show (divQ1 N M : ℚ) * (10 : ℚ) ^ divE1 N M * M =
        (divQ N M : ℚ) * (10 : ℚ) ^ divE N M * M by rw [hval]]
      exact herr
    have hstep2 : 1 / 2 * (10 : ℚ) ^ divE N M * M ≤
        (10 : ℚ) ^ (-27 : ℤ) / 2 * ((divQ1 N M : ℚ) * (10 : ℚ) ^ divE1 N M) * M := by
      have hkey : (10 : ℚ) ^ divE1 N M ≤
          (10 : ℚ) ^ (-27 : ℤ) * ((divQ1 N M : ℚ) * (10 : ℚ) ^ divE1 N M) := by
        have h1 : (10 : ℚ) ^ (27 : ℤ) ≤ (divQ1 N M : ℚ) := by rw [← h27z]; exact hq27Q
        have h2 : (10 : ℚ) ^ (-27 : ℤ) * (10 : ℚ) ^ (27 : ℤ) = 1 := by
          rw [← zpow_add₀ (by norm_num : (10 : ℚ) ≠ 0)]
          norm_num
        have h3 : (0 : ℚ) < (10 : ℚ) ^ divE1 N M := by positivity
        have hm : (10 : ℚ) ^ (27 : ℤ) * (10 : ℚ) ^ divE1 N M ≤
            (divQ1 N M : ℚ) * (10 : ℚ) ^ divE1 N M :=
          mul_le_mul_of_nonneg_right h1 (le_of_lt h3)
        have hid : (10 : ℚ) ^ (-27 : ℤ) * ((10 : ℚ) ^ (27 : ℤ) * (10 : ℚ) ^ divE1 N M) =
            (10 : ℚ) ^ divE1 N M := by
          rw [← mul_assoc, h2, one_mul]
        calc (10 : ℚ) ^ divE1 N M
            = (10 : ℚ) ^ (-27 : ℤ) * ((10 : ℚ) ^ (27 : ℤ) * (10 : ℚ) ^ divE1 N M) := hid.symm
          _ ≤ (10 : ℚ) ^ (-27 : ℤ) * ((divQ1 N M : ℚ) * (10 : ℚ) ^ divE1 N M) :=
              mul_le_mul_of_nonneg_left hm (by positivity)
      have hx1 := mul_le_mul_of_nonneg_right hEmono (le_of_lt hMQ0)
      have hx2 := mul_le_mul_of_nonneg_right hkey (le_of_lt hMQ0)
      have hy1 : 1 / 2 * (10 : ℚ) ^ divE N M * M ≤ 1 / 2 * (10 : ℚ) ^ divE1 N M * M := by
        have := mul_le_mul_of_nonneg_left hx1 (show (0 : ℚ) ≤ 1 / 2 by norm_num)
        calc 1 / 2 * (10 : ℚ) ^ divE N M * M = 1 / 2 * ((10 : ℚ) ^ divE N M * M) := by ring
          _ ≤ 1 / 2 * ((10 : ℚ) ^ divE1 N M * M) := this
          _ = 1 / 2 * (10 : ℚ) ^ divE1 N M * M := by ring
      have hy2 : 1 / 2 * (10 : ℚ) ^ divE1 N M * M ≤
          (10 : ℚ) ^ (-27 : ℤ) / 2 * ((divQ1 N M : ℚ) * (10 : ℚ) ^ divE1 N M) * M := by
        have := mul_le_mul_of_nonneg_left hx2 (show (0 : ℚ) ≤ 1 / 2 by norm_num)
        calc 1 / 2 * (10 : ℚ) ^ divE1 N M * M = 1 / 2 * ((10 : ℚ) ^ divE1 N M * M) := by ring
          _ ≤ 1 / 2 * ((10 : ℚ) ^ (-27 : ℤ) * ((divQ1 N M : ℚ) * (10 : ℚ) ^ divE1 N M) * M) :=
              this
          _ = (10 : ℚ) ^ (-27 : ℤ) / 2 * ((divQ1 N M : ℚ) * (10 : ℚ) ^ divE1 N M) * M := by
              ring
      exact le_trans hy1 hy2
    exact le_trans hstep1 hstep2

/-- `ratOf` of a nonnegative decimal with positive coefficient is positive. -/
theorem ratOf_pos (d : PyDecimal) (hs : d.sign = false) (hc : 0 < d.coeff) :
    0 < ratOf d := by
  unfold ratOf
  rw [hs]
  have h1 : (0 : ℚ) < (d.coeff : ℚ) := by exact_mod_cast hc
  have h2 : (0 : ℚ) < (10 : ℚ) ^ d.exp := by positivity
  simpa using mul_pos h1 h2

/-- `stripZeros` never lowers the exponent. -/
theorem stripZeros_exp_ge (f : Nat) : ∀ (q : Nat) (e i : Int), e ≤ (stripZeros f q e i).2 := by
  induction f with
  | zero => intro q e i; exact le_refl e
  | succ f ih =>
    intro q e i
    have heq : stripZeros (f + 1) q e i =
        if e < i ∧ q % 10 = 0 ∧ q ≠ 0 then stripZeros f (q / 10) (e + 1) i
        else (q, e) := rfl
    by_cases hcond : e < i ∧ q % 10 = 0 ∧ q ≠ 0
    · rw [heq, if_pos hcond]
      have := ih (q / 10) (e + 1) i
      omega
    · rw [heq, if_neg hcond]

theorem divNM_exp_ge (N M : Nat) (i : Int) : divE1 N M ≤ (divNM N M i).2 := by
  unfold divNM
  split
  · exact stripZeros_exp_ge 40 (divQ1 N M) (divE1 N M) i
  · exact le_refl _

/-- `nlog10` is characterised by the sandwich `10^k ≤ n < 10^(k+1)`. -/
theorem nlog10_eq_of (n k : Nat) (h1 : 10 ^ k ≤ n) (h2 : n < 10 ^ (k + 1)) :
    nlog10 n = k := by
  have hn : 0 < n := lt_of_lt_of_le (pow_pos (by norm_num) k) h1
  obtain ⟨g1, g2⟩ := nlog10_spec n hn
  rcases Nat.lt_trichotomy (nlog10 n) k with hlt | heq | hgt
  · have : (10 : Nat) ^ (nlog10 n + 1) ≤ 10 ^ k :=
      Nat.pow_le_pow_right (by norm_num) (by omega)
    omega
  · exact heq
  · have : (10 : Nat) ^ (k + 1) ≤ 10 ^ nlog10 n :=
      Nat.pow_le_pow_right (by norm_num) (by omega)
    omega

/-- Removing one trailing zero lowers `nlog10` by one. -/
theorem nlog10_div10 (q : Nat) (hdvd : 10 ∣ q) (hq : q ≠ 0) :
    nlog10 (q / 10) + 1 = nlog10 q := by
  have hq10 : 10 ≤ q := Nat.le_of_dvd (Nat.pos_of_ne_zero hq) hdvd
  obtain ⟨g1, g2⟩ := nlog10_spec q (by omega)
  have hl1 : 1 ≤ nlog10 q := by
    by_contra hc
    have h0 : nlog10 q = 0 := by omega
    rw [h0] at g2
    norm_num at g2
    omega
  have hpe : 10 ^ (nlog10 q - 1) * 10 = 10 ^ nlog10 q := by
    rw [← pow_succ]
    congr 1
    omega
  have hlow : 10 ^ (nlog10 q - 1) ≤ q / 10 :=
    (Nat.le_div_iff_mul_le (by norm_num)).mpr (by omega)
  have hpe2 : (10 : Nat) ^ (nlog10 q - 1 + 1) = 10 ^ nlog10 q := by
    congr 1
    omega
  have hhigh : q / 10 < 10 ^ (nlog10 q - 1 + 1) := by
    rw [hpe2]
    refine Nat.div_lt_of_lt_mul ?_
    have hpe3 : 10 ^ nlog10 q * 10 = 10 ^ (nlog10 q + 1) := by rw [← pow_succ]
    omega
  have := nlog10_eq_of (q / 10) (nlog10 q - 1) hlow hhigh
  omega

/-- `stripZeros` preserves the adjusted exponent (digit count plus
exponent). -/
theorem stripZeros_adj (f : Nat) : ∀ (q : Nat) (e i : Int), 0 < q →
    (nlog10 (stripZeros f q e i).1 : Int) + (stripZeros f q e i).2 =
      (nlog10 q : Int) + e := by
  induction f with
  | zero => intro q e i _; rfl
  | succ f ih =>
    intro q e i hq
    have heq : stripZeros (f + 1) q e i =
        if e < i ∧ q % 10 = 0 ∧ q ≠ 0 then stripZeros f (q / 10) (e + 1) i
        else (q, e) := rfl
    by_cases hcond : e < i ∧ q % 10 = 0 ∧ q ≠ 0
    · rw [heq, if_pos hcond]
      have hdvd : 10 ∣ q := Nat.dvd_of_mod_eq_zero hcond.2.1
      have hq10 : 10 ≤ q := Nat.le_of_dvd hq hdvd
      have hqd : 0 < q / 10 := Nat.div_pos hq10 (by norm_num)
      have hrec := ih (q / 10) (e + 1) i hqd
      have hstep := nlog10_div10 q hdvd hcond.2.2
      omega
    · rw [heq, if_neg hcond]

/-- The rounded coefficient before stripping is strictly below `10^28`. -/
theorem divQ1_ub (N M : Nat) (hN : 0 < N) (hM : 0 < M) : divQ1 N M < 10 ^ 28 := by
  obtain ⟨h27, h28⟩ := divQ_bounds N M hN hM
  unfold divQ1
  split
  case isTrue h => norm_num
  case isFalse h => omega

theorem divD_cases (N M : Nat) : divD N M = divK N M ∨ divD N M = divK N M - 1 := by
  unfold divD
  split
  · exact Or.inl rfl
  · exact Or.inr rfl

theorem divE1_cases (N M : Nat) : divE1 N M = divE N M ∨ divE1 N M = divE N M + 1 := by
  unfold divE1
  split
  · exact Or.inr rfl
  · exact Or.inl rfl

/-- The quotient's adjusted exponent: the rounding carry and the
stripping both preserve it, and the 28-digit pre-strip coefficient
pins it at `divE1 + 27`. -/
theorem divNM_adj (N M : Nat) (i : Int) (hN : 0 < N) (hM : 0 < M) :
    (nlog10 (divNM N M i).1 : Int) + (divNM N M i).2 = divE1 N M + 27 := by
  have hlb := divQ1_lb N M hN hM
  have hub := divQ1_ub N M hN hM
  have hub' : divQ1 N M < 10 ^ (27 + 1) := by
    have hnum : (10 : Nat) ^ (27 + 1) = 10 ^ 28 := by norm_num
    omega
  have hn27 : nlog10 (divQ1 N M) = 27 := nlog10_eq_of _ 27 hlb hub'
  unfold divNM
  split
  · have hqpos : 0 < divQ1 N M := lt_of_lt_of_le (pow_pos (by norm_num) 27) hlb
    have hadj := stripZeros_adj 40 (divQ1 N M) (divE1 N M) i hqpos
    omega
  · show (nlog10 (divQ1 N M) : Int) + divE1 N M = divE1 N M + 27
    omega

theorem adjExp_one : adjExp one = 0 := by decide

/-- Correct rounding of the context-free quotient `pyDivRes` on
positive decimals: the computed quotient is positive and within half a
unit of its 28th significant digit of the exact quotient. -/
theorem pyDiv_correct (a b : PyDecimal) (hsa : a.sign = false) (hsb : b.sign = false)
    (ha : 0 < a.coeff) (hb : 0 < b.coeff) :
    (pyDivRes a b).sign = false ∧ 0 < (pyDivRes a b).coeff ∧
      |ratOf (pyDivRes a b) - ratOf a / ratOf b| ≤
        (10 : ℚ) ^ (-27 : ℤ) / 2 * ratOf (pyDivRes a b) := by
  have hten : (10 : ℚ) ≠ 0 := by norm_num
  have hbQ : (0 : ℚ) < (b.coeff : ℚ) := by exact_mod_cast hb
  obtain ⟨hp, herr⟩ := divNM_correct a.coeff b.coeff 0 ha hb
  set p : Nat × Int := divNM a.coeff b.coeff 0 with hpdef
  have hsign : (pyDivRes a b).sign = false := by
    show xor a.sign b.sign = false
    rw [hsa, hsb]
    rfl
  have hcoeff : (pyDivRes a b).coeff = p.1 := rfl
  have hexp : (pyDivRes a b).exp = p.2 + (a.exp - b.exp) := rfl
  refine ⟨hsign, by rw [hcoeff]; exact hp, ?_⟩
  have hv : ratOf (pyDivRes a b) =
      (p.1 : ℚ) * ((10 : ℚ) ^ p.2 * (10 : ℚ) ^ (a.exp - b.exp)) := by
    unfold ratOf
    rw [hsign, hcoeff, hexp]
    rw [← zpow_add₀ hten]
    simp
  have hratio : ratOf a / ratOf b =
      (a.coeff : ℚ) / (b.coeff : ℚ) * (10 : ℚ) ^ (a.exp - b.exp) := by
    have hva : ratOf a = (a.coeff : ℚ) * (10 : ℚ) ^ a.exp := by
      unfold ratOf
      rw [hsa]
      simp
    have hvb : ratOf b = (b.coeff : ℚ) * (10 : ℚ) ^ b.exp := by
      unfold ratOf
      rw [hsb]
      simp
    have hz : (10 : ℚ) ^ a.exp = (10 : ℚ) ^ b.exp * (10 : ℚ) ^ (a.exp - b.exp) := by
      rw [← zpow_add₀ hten]
      congr 1
      ring
    have hbne : (b.coeff : ℚ) ≠ 0 := ne_of_gt hbQ
    have h10b : (10 : ℚ) ^ b.exp ≠ 0 := zpow_ne_zero _ hten
    rw [hva, hvb, hz]
    field_simp
    ring
  have hdiv : |(p.1 : ℚ) * (10 : ℚ) ^ p.2 - (a.coeff : ℚ) / (b.coeff : ℚ)| ≤
      (10 : ℚ) ^ (-27 : ℤ) / 2 * ((p.1 : ℚ) * (10 : ℚ) ^ p.2) := by
    have hX : ((p.1 : ℚ) * (10 : ℚ) ^ p.2 - (a.coeff : ℚ) / (b.coeff : ℚ)) * (b.coeff : ℚ) =
        (p.1 : ℚ) * (10 : ℚ) ^ p.2 * (b.coeff : ℚ) - (a.coeff : ℚ) := by
      field_simp
    have habs : |(p.1 : ℚ) * (10 : ℚ) ^ p.2 - (a.coeff : ℚ) / (b.coeff : ℚ)| * (b.coeff : ℚ) =
        |(p.1 : ℚ) * (10 : ℚ) ^ p.2 * (b.coeff : ℚ) - (a.coeff : ℚ)| := by
      rw [← hX, abs_mul, abs_of_pos hbQ]
    have hfin : |(p.1 : ℚ) * (10 : ℚ) ^ p.2 - (a.coeff : ℚ) / (b.coeff : ℚ)| * (b.coeff : ℚ) ≤
        ((10 : ℚ) ^ (-27 : ℤ) / 2 * ((p.1 : ℚ) * (10 : ℚ) ^ p.2)) * (b.coeff : ℚ) := by
      rw [habs]
      calc |(p.1 : ℚ) * (10 : ℚ) ^ p.2 * (b.coeff : ℚ) - (a.coeff : ℚ)| ≤
          (10 : ℚ) ^ (-27 : ℤ) / 2 * ((p.1 : ℚ) * (10 : ℚ) ^ p.2) * (b.coeff : ℚ) := herr
        _ = ((10 : ℚ) ^ (-27 : ℤ) / 2 * ((p.1 : ℚ) * (10 : ℚ) ^ p.2)) * (b.coeff : ℚ) := by
            ring
    exact le_of_mul_le_mul_right hfin hbQ
  have htp : (0 : ℚ) < (10 : ℚ) ^ (a.exp - b.exp) := by positivity
  rw [hv, hratio]
  have hkey : (p.1 : ℚ) * ((10 : ℚ) ^ p.2 * (10 : ℚ) ^ (a.exp - b.exp)) -
      (a.coeff : ℚ) / (b.coeff : ℚ) * (10 : ℚ) ^ (a.exp - b.exp) =
      ((p.1 : ℚ) * (10 : ℚ) ^ p.2 - (a.coeff : ℚ) / (b.coeff : ℚ)) *
        (10 : ℚ) ^ (a.exp - b.exp) := by
    ring
  rw [hkey, abs_mul, abs_of_pos htp]
  calc |(p.1 : ℚ) * (10 : ℚ) ^ p.2 - (a.coeff : ℚ) / (b.coeff : ℚ)| *
      (10 : ℚ) ^ (a.exp - b.exp) ≤
      ((10 : ℚ) ^ (-27 : ℤ) / 2 * ((p.1 : ℚ) * (10 : ℚ) ^ p.2)) *
        (10 : ℚ) ^ (a.exp - b.exp) :=
        mul_le_mul_of_nonneg_right hdiv htp.le
    _ = (10 : ℚ) ^ (-27 : ℤ) / 2 *
        ((p.1 : ℚ) * ((10 : ℚ) ^ p.2 * (10 : ℚ) ^ (a.exp - b.exp))) := by
        ring

/-- Inside the safe range the context bounds do not bite: when the
difference of the operands' adjusted exponents lies within
`[Emin + 1, Emax - 1]`, `pyDiv` returns the context-free quotient — no
`Overflow`, no subnormal re-rounding. -/
theorem pyDiv_in_range (a b : PyDecimal)
    (h1 : Emin + 1 ≤ adjExp a - adjExp b) (h2 : adjExp a - adjExp b ≤ Emax - 1) :
    pyDiv a b = some (pyDivRes a b) := by
  have h1' : (-999999 : Int) + 1 ≤ adjExp a - adjExp b := h1
  have h2' : adjExp a - adjExp b ≤ (999999 : Int) - 1 := h2
  have hA : divK a.coeff b.coeff + (a.exp - b.exp) = adjExp a - adjExp b := by
    unfold divK adjExp
    ring
  have hD := divD_cases a.coeff b.coeff
  have hE1 := divE1_cases a.coeff b.coeff
  have hEdef : divE a.coeff b.coeff = divD a.coeff b.coeff - 27 := rfl
  have hge := divNM_exp_ge a.coeff b.coeff 0
  have hnov : ¬(Emax < divE1 a.coeff b.coeff + 27 + (a.exp - b.exp)) := by
    show ¬((999999 : Int) < divE1 a.coeff b.coeff + 27 + (a.exp - b.exp))
    omega
  have hnsub : ¬((divNM a.coeff b.coeff 0).2 + (a.exp - b.exp) < Etiny) := by
    show ¬((divNM a.coeff b.coeff 0).2 + (a.exp - b.exp) < (-999999 : Int) - 27)
    omega
  unfold pyDiv
  rw [if_neg hnov, if_neg hnsub]

/-- The adjusted exponent of the context-free quotient is within one
of the difference of the operands' adjusted exponents. -/
theorem adjExp_pyDivRes (a b : PyDecimal) (ha : 0 < a.coeff) (hb : 0 < b.coeff) :
    adjExp a - adjExp b - 1 ≤ adjExp (pyDivRes a b) ∧
      adjExp (pyDivRes a b) ≤ adjExp a - adjExp b + 1 := by
  have hadj : adjExp (pyDivRes a b) =
      ((divNM a.coeff b.coeff 0).2 + (a.exp - b.exp)) +
        (nlog10 (divNM a.coeff b.coeff 0).1 : Int) := rfl
  have hform := divNM_adj a.coeff b.coeff 0 ha hb
  have hA : divK a.coeff b.coeff + (a.exp - b.exp) = adjExp a - adjExp b := by
    unfold divK adjExp
    ring
  have hD := divD_cases a.coeff b.coeff
  have hE1 := divE1_cases a.coeff b.coeff
  have hEdef : divE a.coeff b.coeff = divD a.coeff b.coeff - 27 := rfl
  rw [hadj]
  omega

/-- A positive decimal whose adjusted exponent lies within
`[-999998, 999998]` has an in-range reciprocal. -/
theorem pyDiv_one_in_range (x : PyDecimal) (hlo : -999998 ≤ adjExp x)
    (hhi : adjExp x ≤ 999998) : pyDiv one x = some (pyDivRes one x) := by
  have hone : adjExp one = 0 := adjExp_one
  apply pyDiv_in_range
  · show (-999999 : Int) + 1 ≤ adjExp one - adjExp x
    omega
  · show adjExp one - adjExp x ≤ (999999 : Int) - 1
    omega

theorem digitsVal_cons_zero (L : List Nat) : digitsVal (0 :: L) = digitsVal L := rfl

theorem digitsVal_snoc (A : List Nat) (x : Nat) :
    digitsVal (A ++ [x]) = 10 * digitsVal A + x := by
  unfold digitsVal
  rw [List.foldl_append]
  rfl

theorem digitsVal_zeros (z : Nat) (L : List Nat) :
    digitsVal (List.replicate z 0 ++ L) = digitsVal L := by
  induction z with
  | zero => rfl
  | succ z ih =>
    rw [List.replicate_succ, List.cons_append, digitsVal_cons_zero]
    exact ih

theorem natDigitsRev_zero (f : Nat) : natDigitsRev f 0 = [] := by
  cases f <;> rfl

theorem natDigitsRev_succ (f n : Nat) (hn : n ≠ 0) :
    natDigitsRev (f + 1) n = n % 10 :: natDigitsRev f (n / 10) := by
  show (if n = 0 then [] else n % 10 :: natDigitsRev f (n / 10)) = _
  rw [if_neg hn]

theorem natDigitsRev_val : ∀ f n : Nat, n ≤ f →
    digitsVal (natDigitsRev f n).reverse = n := by
  intro f
  induction f with
  | zero =>
    intro n h
    interval_cases n
    rfl
  | succ f ih =>
    intro n h
    by_cases hn : n = 0
    · subst hn
      rw [natDigitsRev_zero]
      rfl
    · rw [natDigitsRev_succ f n hn, List.reverse_cons, digitsVal_snoc,
        ih (n / 10) (by omega)]
      omega

theorem digitsVal_digitsM (n : Nat) : digitsVal (digitsM n) = n := by
  unfold digitsM
  split
  case isTrue h => rw [h]; rfl
  case isFalse h => exact natDigitsRev_val n n le_rfl

theorem natDigitsRev_lt10 : ∀ f n x : Nat, x ∈ natDigitsRev f n → x < 10 := by
  intro f
  induction f with
  | zero => intro n x hx; simp [natDigitsRev] at hx
  | succ f ih =>
    intro n x hx
    by_cases hn : n = 0
    · subst hn; rw [natDigitsRev_zero] at hx; simp at hx
    · rw [natDigitsRev_succ f n hn] at hx
      rcases List.mem_cons.mp hx with h | h
      · omega
      · exact ih (n / 10) x h

theorem digitsM_lt10 (n : Nat) : ∀ x ∈ digitsM n, x < 10 := by
  unfold digitsM
  split
  · intro x hx; simp at hx; omega
  · intro x hx
    rw [List.mem_reverse] at hx
    exact natDigitsRev_lt10 n n x hx

theorem digitsM_ne_nil (n : Nat) : digitsM n ≠ [] := by
  unfold digitsM
  split
  · simp
  case isFalse h =>
    obtain ⟨m, rfl⟩ := Nat.exists_eq_succ_of_ne_zero h
    rw [natDigitsRev_succ m (m + 1) h]
    simp

theorem isDig_digitChar (d : Nat) (h : d < 10) : isDig (digitChar d) = true := by
  interval_cases d <;> decide

theorem digVal_digitChar (d : Nat) (h : d < 10) : digVal (digitChar d) = d := by
  interval_cases d <;> decide

theorem digitChar_ne_dash (d : Nat) (h : d < 10) : digitChar d ≠ '-' := by
  interval_cases d <;> decide

theorem digitChar_ne_plus (d : Nat) (h : d < 10) : digitChar d ≠ '+' := by
  interval_cases d <;> decide

theorem stripSign_digits (ds : List Nat) (hlt : ∀ x ∈ ds, x < 10) (hne : ds ≠ [])
    (r : List Char) :
    stripSign (ds.map digitChar ++ r) = (false, ds.map digitChar ++ r) := by
  obtain ⟨d0, rest, rfl⟩ := List.exists_cons_of_ne_nil hne
  have h0 : d0 < 10 := hlt d0 (List.mem_cons_self d0 rest)
  simp only [List.map_cons, List.cons_append, stripSign]
  rw [if_neg (digitChar_ne_dash d0 h0), if_neg (digitChar_ne_plus d0 h0)]

theorem splitDigits_notdig (c : Char) (r : List Char) (h : isDig c = false) :
    splitDigits (c :: r) = ([], c :: r) := by
  unfold splitDigits
  rw [h]
  rfl

theorem splitDigits_digits (ds : List Nat) (r : List Char) (hlt : ∀ x ∈ ds, x < 10)
    (hr : headNonDigit r = true) : splitDigits (ds.map digitChar ++ r) = (ds, r) := by
  induction ds with
  | nil =>
    simp only [List.map_nil, List.nil_append]
    match r with
    | [] => rfl
    | c :: r' =>
      have hc : isDig c = false := by
        simpa [headNonDigit] using hr
      exact splitDigits_notdig c r' hc
  | cons d ds ih =>
    have hd : d < 10 := hlt d (List.mem_cons_self d ds)
    have hds : ∀ x ∈ ds, x < 10 := fun x hx => hlt x (List.mem_cons_of_mem d hx)
    simp only [List.map_cons, List.cons_append]
    unfold splitDigits
    rw [isDig_digitChar d hd]
    simp only [if_true]
    rw [ih hds, digVal_digitChar d hd]

theorem parseFrac_nil : parseFrac [] = ([], []) := rfl

theorem parseFrac_dot (r : List Char) : parseFrac ('.' :: r) = splitDigits r := by
  simp [parseFrac]

theorem parseFrac_other (c : Char) (r : List Char) (h : c ≠ '.') :
    parseFrac (c :: r) = ([], c :: r) := by
  simp [parseFrac, h]

theorem parseExpChars_expChars (adj : Int) :
    parseExpChars (expChars adj) = some adj := by
  have hlt := digitsM_lt10 adj.natAbs
  have hne := digitsM_ne_nil adj.natAbs
  have hsplit : splitDigits ((digitsM adj.natAbs).map digitChar) = (digitsM adj.natAbs, []) := by
    have h := splitDigits_digits (digitsM adj.natAbs) [] hlt rfl
    rwa [List.append_nil] at h
  have hval := digitsVal_digitsM adj.natAbs
  by_cases hneg : adj < 0
  · have hec : expChars adj = '-' :: (digitsM adj.natAbs).map digitChar := by
      unfold expChars
      rw [if_pos hneg]
    rw [hec]
    simp [parseExpChars, stripSign, hsplit, hne, hval]
    rw [abs_of_neg hneg]
    ring
  · have hec : expChars adj = '+' :: (digitsM adj.natAbs).map digitChar := by
      unfold expChars
      rw [if_neg hneg]
    rw [hec]
    simp [parseExpChars, stripSign, hsplit, hne, hval]
    omega

theorem parseChars_digits (A : List Nat) (hA : ∀ x ∈ A, x < 10) (hne : A ≠ []) :
    parseChars (A.map digitChar) = some ⟨false, digitsVal A, 0⟩ := by
  have h1 : stripSign (A.map digitChar) = (false, A.map digitChar) := by
    have h := stripSign_digits A hA hne []
    rwa [List.append_nil] at h
  have h2 : splitDigits (A.map digitChar) = (A, []) := by
    have h := splitDigits_digits A [] hA rfl
    rwa [List.append_nil] at h
  simp [parseChars, h1, h2, parseFrac_nil, hne]

theorem parseChars_point (A B : List Nat) (hA : ∀ x ∈ A, x < 10) (hB : ∀ x ∈ B, x < 10)
    (hne : A ≠ []) :
    parseChars (A.map digitChar ++ '.' :: B.map digitChar) =
      some ⟨false, digitsVal (A ++ B), -(B.length : Int)⟩ := by
  have h1 := stripSign_digits A hA hne ('.' :: B.map digitChar)
  have h2 : splitDigits (A.map digitChar ++ '.' :: B.map digitChar) =
      (A, '.' :: B.map digitChar) :=
    splitDigits_digits A ('.' :: B.map digitChar) hA rfl
  have h3 : splitDigits (B.map digitChar) = (B, []) := by
    have h := splitDigits_digits B [] hB rfl
    rwa [List.append_nil] at h
  simp [parseChars, h1, h2, parseFrac_dot, h3, hne]

theorem parseChars_sci (A : List Nat) (adj : Int) (hA : ∀ x ∈ A, x < 10) (hne : A ≠ []) :
    parseChars (A.map digitChar ++ 'E' :: expChars adj) =
      some ⟨false, digitsVal A, adj⟩ := by
  have h1 := stripSign_digits A hA hne ('E' :: expChars adj)
  have h2 : splitDigits (A.map digitChar ++ 'E' :: expChars adj) =
      (A, 'E' :: expChars adj) :=
    splitDigits_digits A ('E' :: expChars adj) hA rfl
  have h3 : parseFrac ('E' :: expChars adj) = ([], 'E' :: expChars adj) :=
    parseFrac_other 'E' (expChars adj) (by decide)
  simp [parseChars, h1, h2, h3, hne, parseExpChars_expChars]

theorem parseChars_point_sci (A B : List Nat) (adj : Int) (hA : ∀ x ∈ A, x < 10)
    (hB : ∀ x ∈ B, x < 10) (hne : A ≠ []) :
    parseChars (A.map digitChar ++ '.' :: (B.map digitChar ++ 'E' :: expChars adj)) =
      some ⟨false, digitsVal (A ++ B), -(B.length : Int) + adj⟩ := by
  have h1 := stripSign_digits A hA hne ('.' :: (B.map digitChar ++ 'E' :: expChars adj))
  have h2 : splitDigits (A.map digitChar ++ '.' :: (B.map digitChar ++ 'E' :: expChars adj)) =
      (A, '.' :: (B.map digitChar ++ 'E' :: expChars adj)) :=
    splitDigits_digits A _ hA rfl
  have h3 : splitDigits (B.map digitChar ++ 'E' :: expChars adj) =
      (B, 'E' :: expChars adj) :=
    splitDigits_digits B ('E' :: expChars adj) hB rfl
  simp [parseChars, h1, h2, parseFrac_dot, h3, hne, parseExpChars_expChars]

theorem toSciChars_int (c : Nat) :
    toSciChars ⟨false, c, 0⟩ = (digitsM c).map digitChar := by
  have hlen : 1 ≤ (digitsM c).length := List.length_pos.mpr (digitsM_ne_nil c)
  simp only [toSciChars]
  rw [if_pos (⟨le_refl (0 : ℤ), by omega⟩ :
    (0 : ℤ) ≤ 0 ∧ (-6 : ℤ) ≤ 0 + ((digitsM c).length : ℤ) - 1)]
  simp

theorem toSciChars_point (c : Nat) (e : Int) (he : e < 0)
    (hadj : 0 ≤ e + ((digitsM c).length : Int) - 1) :
    toSciChars ⟨false, c, e⟩ =
      ((digitsM c).take ((e + ((digitsM c).length : Int) - 1).toNat + 1)).map digitChar ++
        '.' :: ((digitsM c).drop ((e + ((digitsM c).length : Int) - 1).toNat + 1)).map digitChar := by
  simp only [toSciChars]
  rw [if_pos (⟨le_of_lt he, by omega⟩ :
    e ≤ 0 ∧ (-6 : ℤ) ≤ e + ((digitsM c).length : ℤ) - 1)]
  rw [if_neg (by omega : ¬ e = 0), if_pos hadj, if_neg (by decide : ¬ (false = true))]

theorem toSciChars_small (c : Nat) (e : Int) (he : e ≤ 0)
    (hadj : e + ((digitsM c).length : Int) - 1 < 0)
    (h6 : (-6 : ℤ) ≤ e + ((digitsM c).length : Int) - 1) :
    toSciChars ⟨false, c, e⟩ =
      '0' :: '.' :: (List.replicate (-(e + ((digitsM c).length : Int) - 1) - 1).toNat '0' ++
        (digitsM c).map digitChar) := by
  have hlen : 1 ≤ (digitsM c).length := List.length_pos.mpr (digitsM_ne_nil c)
  simp only [toSciChars]
  rw [if_pos (⟨he, h6⟩ : e ≤ 0 ∧ (-6 : ℤ) ≤ e + ((digitsM c).length : ℤ) - 1)]
  rw [if_neg (by omega : ¬ e = 0), if_neg (by omega : ¬ (0 : ℤ) ≤ e + ((digitsM c).length : ℤ) - 1),
    if_neg (by decide : ¬ (false = true))]

theorem toSciChars_sci (c : Nat) (e : Int) (d0 : Nat) (rest : List Nat)
    (hds : digitsM c = d0 :: rest)
    (hcond : ¬ (e ≤ 0 ∧ (-6 : ℤ) ≤ e + ((digitsM c).length : Int) - 1)) :
    toSciChars ⟨false, c, e⟩ =
      digitChar d0 ::
        ((if rest.isEmpty then [] else '.' :: rest.map digitChar) ++
          'E' :: expChars (e + ((digitsM c).length : Int) - 1)) := by
  simp only [toSciChars]
  rw [if_neg hcond, if_neg (by decide : ¬ (false = true))]
  rw [hds]

/-- Parsing the printed form of a nonnegative decimal recovers exactly
the same coefficient and exponent. -/
theorem parse_toSci (c : Nat) (e : Int) (hc : 0 < c) :
    parseChars (toSciChars ⟨false, c, e⟩) = some ⟨false, c, e⟩ := by
  have hlt := digitsM_lt10 c
  have hne := digitsM_ne_nil c
  have hval := digitsVal_digitsM c
  have hlen : 1 ≤ (digitsM c).length := List.length_pos.mpr hne
  by_cases hA : e ≤ 0 ∧ (-6 : ℤ) ≤ e + ((digitsM c).length : ℤ) - 1
  · by_cases hz : e = 0
    · subst hz
      rw [toSciChars_int c, parseChars_digits (digitsM c) hlt hne, hval]
    · have he : e < 0 := lt_of_le_of_ne hA.1 hz
      by_cases hadj : (0 : ℤ) ≤ e + ((digitsM c).length : ℤ) - 1
      · -- plain notation with a decimal point
        set k := (e + ((digitsM c).length : ℤ) - 1).toNat + 1 with hk
        have hklen : k ≤ (digitsM c).length := by omega
        rw [toSciChars_point c e he hadj]
        have htake : ∀ x ∈ (digitsM c).take k, x < 10 := fun x hx =>
          hlt x (List.mem_of_mem_take hx)
        have hdrop : ∀ x ∈ (digitsM c).drop k, x < 10 := fun x hx =>
          hlt x (List.mem_of_mem_drop hx)
        have htne : (digitsM c).take k ≠ [] := by
          intro hcon
          have hlen0 : ((digitsM c).take k).length = 0 := by rw [hcon]; rfl
          rw [List.length_take] at hlen0
          omega
        rw [parseChars_point _ _ htake hdrop htne, List.take_append_drop, hval]
        have hexp : -((((digitsM c).drop k).length : ℤ)) = e := by
          rw [List.length_drop]
          omega
        rw [hexp]
      · -- plain notation 0.000…
        push_neg at hadj
        rw [toSciChars_small c e hA.1 hadj hA.2]
        set z := (-(e + ((digitsM c).length : ℤ) - 1) - 1).toNat with hzdef
        have hshape : ('0' : Char) :: '.' ::
            (List.replicate z '0' ++ (digitsM c).map digitChar) =
            ([0] : List Nat).map digitChar ++
              '.' :: (List.replicate z 0 ++ digitsM c).map digitChar := by
          simp [List.map_append, List.map_replicate]
          exact ⟨by decide, Or.inr (by decide)⟩
        rw [hshape]
        have hB : ∀ x ∈ List.replicate z 0 ++ digitsM c, x < 10 := by
          intro x hx
          rcases List.mem_append.mp hx with h | h
          · have := List.eq_of_mem_replicate h
            omega
          · exact hlt x h
        rw [parseChars_point [0] _ (by intro x hx; simp at hx; omega) hB (by simp)]
        have hcoeff : digitsVal ([0] ++ (List.replicate z 0 ++ digitsM c)) = c := by
          rw [List.singleton_append, digitsVal_cons_zero, digitsVal_zeros, hval]
        rw [hcoeff]
        have hexp : -(((List.replicate z 0 ++ digitsM c).length : ℤ)) = e := by
          rw [List.length_append, List.length_replicate]
          omega
        rw [hexp]
  · -- scientific notation
    obtain ⟨d0, rest, hds⟩ := List.exists_cons_of_ne_nil hne
    have hd0 : d0 < 10 := hlt d0 (by rw [hds]; exact List.mem_cons_self d0 rest)
    have hrlt : ∀ x ∈ rest, x < 10 := fun x hx =>
      hlt x (by rw [hds]; exact List.mem_cons_of_mem d0 hx)
    rw [toSciChars_sci c e d0 rest hds hA]
    by_cases hrest : rest.isEmpty
    · have hrest' : rest = [] := by
        cases rest
        · rfl
        · simp [List.isEmpty] at hrest
      subst hrest'
      have hshape : digitChar d0 ::
          ((if ([] : List Nat).isEmpty then [] else '.' :: ([] : List Nat).map digitChar) ++
            'E' :: expChars (e + ((digitsM c).length : ℤ) - 1)) =
          ([d0] : List Nat).map digitChar ++
            'E' :: expChars (e + ((digitsM c).length : ℤ) - 1) := by
        simp
      rw [hshape, parseChars_sci [d0] _ (by intro x hx; simp at hx; omega) (by simp)]
      have hcoeff : digitsVal [d0] = c := by
        rw [← hval, hds]
      rw [hcoeff]
      have hlen1 : ((digitsM c).length : ℤ) = 1 := by rw [hds]; rfl
      have hexp : e + ((digitsM c).length : ℤ) - 1 = e := by omega
      rw [hexp]
    · have hrest' : rest ≠ [] := by
        cases rest
        · simp [List.isEmpty] at hrest
        · simp
      have hshape : digitChar d0 ::
          ((if rest.isEmpty then [] else '.' :: rest.map digitChar) ++
            'E' :: expChars (e + ((digitsM c).length : ℤ) - 1)) =
          ([d0] : List Nat).map digitChar ++
            '.' :: (rest.map digitChar ++
              'E' :: expChars (e + ((digitsM c).length : ℤ) - 1)) := by
        rw [if_neg hrest]
        simp
      rw [hshape, parseChars_point_sci [d0] rest _
        (by intro x hx; simp at hx; omega) hrlt (by simp)]
      have hcoeff : digitsVal ([d0] ++ rest) = c := by
        rw [← hval, hds]
        rfl
      rw [hcoeff]
      have hlenr : ((digitsM c).length : ℤ) = 1 + rest.length := by
        rw [hds]
        push_cast [List.length_cons]
        ring
      have hexp : -(rest.length : ℤ) + (e + ((digitsM c).length : ℤ) - 1) = e := by omega
      rw [hexp]

/-- String-level version of the round trip. -/
theorem parseDec_toSciString (d : PyDecimal) (hs : d.sign = false) (hc : 0 < d.coeff) :
    parseDec (toSciString d) = some d := by
  obtain ⟨s, c, e⟩ := d
  simp only at hs hc
  subst hs
  exact parse_toSci c e hc

theorem except_ok_bind {α β : Type} (a : α) (f : α → Except PyErr β) :
    (Except.ok a >>= f) = f a := rfl

theorem except_err_bind {α β : Type} (er : PyErr) (f : α → Except PyErr β) :
    ((Except.error er : Except PyErr α) >>= f) = Except.error er := rfl

theorem except_ok_map {α β : Type} (a : α) (f : α → β) :
    (f <$> (Except.ok a : Except PyErr α)) = Except.ok (f a) := rfl

theorem except_err_map {α β : Type} (er : PyErr) (f : α → β) :
    (f <$> (Except.error er : Except PyErr α)) = Except.error er := rfl

theorem invert_nil : invert_exchange_rate [] = .ok [] := rfl

theorem ratOf_one : ratOf one = 1 := by
  simp [ratOf, one]

theorem invert_cons_ok (k : String) (v : PyVal) (rest : RawMap) (s : String)
    (out : List (String × String)) (hv : invertVal v = .ok s)
    (hre : invert_exchange_rate rest = .ok out) :
    invert_exchange_rate ((k, v) :: rest) = .ok ((k, s) :: out) := by
  simp [invert_exchange_rate, hv, hre, except_ok_bind]

theorem invert_cons_err (k : String) (v : PyVal) (rest : RawMap) (er : PyErr)
    (hv : invertVal v = .error er) :
    invert_exchange_rate ((k, v) :: rest) = .error er := by
  simp [invert_exchange_rate, hv, except_err_bind]

theorem invert_cons_err_tail (k : String) (v : PyVal) (rest : RawMap) (s : String)
    (er : PyErr) (hv : invertVal v = .ok s)
    (hre : invert_exchange_rate rest = .error er) :
    invert_exchange_rate ((k, v) :: rest) = .error er := by
  simp [invert_exchange_rate, hv, hre, except_ok_bind, except_err_map]

theorem invertVal_dec_ok (x y : PyDecimal) (hx : x.coeff ≠ 0)
    (hy : pyDiv one x = some y) :
    invertVal (.dec x) = .ok (toSciString y) := by
  simp [invertVal, decimalOfVal, hx, hy]

theorem invertVal_dec_overflow (x : PyDecimal) (hx : x.coeff ≠ 0)
    (hy : pyDiv one x = Option.none) :
    invertVal (.dec x) = .error .overflow := by
  simp [invertVal, decimalOfVal, hx, hy]

theorem invertVal_dec_zero (x : PyDecimal) (hx : x.coeff = 0) :
    invertVal (.dec x) = .error .divisionByZero := by
  simp [invertVal, decimalOfVal, hx]

theorem clean_rates_ok (m : RawMap) (aed eur usd btc eth sol : PyDecimal)
    (hA : getField m "AED" = .ok aed) (hE : getField m "EUR" = .ok eur)
    (hU : getField m "USD" = .ok usd) (hB : getField m "BTC" = .ok btc)
    (hT : getField m "ETH" = .ok eth) (hS : getField m "SOL" = .ok sol) :
    clean_exchange_rate (.rates m) =
      .ok [("AED", aed), ("EUR", eur), ("USD", usd),
        ("BTC", btc), ("ETH", eth), ("SOL", sol)] := by
  simp [clean_exchange_rate, hA, hE, hU, hB, hT, hS, except_ok_bind]

/-- If some value of a (decimal-valued) mapping is zero, the inversion
comprehension raises: entries are decimals, so every entry either
inverts, is itself the zero (raising `DivisionByZero`), or overflows
the context; the first failing entry aborts the comprehension. -/
theorem invert_zero_mem (m : List (String × PyDecimal)) (c : String) (x : PyDecimal)
    (hmem : (c, x) ∈ m) (hzero : x.coeff = 0) :
    ∃ er : PyErr, invert_exchange_rate (toPyVals m) = .error er := by
  induction m with
  | nil => simp at hmem
  | cons p rest ih =>
    obtain ⟨k, v⟩ := p
    have hto : toPyVals ((k, v) :: rest) = (k, PyVal.dec v) :: toPyVals rest := rfl
    rw [hto]
    by_cases hv : v.coeff = 0
    · exact ⟨.divisionByZero, invert_cons_err k _ _ _ (invertVal_dec_zero v hv)⟩
    · rcases List.mem_cons.mp hmem with heq | htail
      · exact absurd (congrArg PyDecimal.coeff (congrArg Prod.snd heq) ▸ hzero) hv
      · obtain ⟨er, hre⟩ := ih htail
        rcases hdiv : pyDiv one v with _ | y
        · exact ⟨.overflow, invert_cons_err k _ _ _ (invertVal_dec_overflow v hv hdiv)⟩
        · exact ⟨er, invert_cons_err_tail k _ _ _ _ (invertVal_dec_ok v y hv hdiv) hre⟩

/-- If moreover no entry of the mapping overflows the context, the
inversion error is precisely `DivisionByZero`. -/
theorem invert_zero_mem_exact (m : List (String × PyDecimal)) (c : String) (x : PyDecimal)
    (hmem : (c, x) ∈ m) (hzero : x.coeff = 0)
    (hsafe : ∀ p ∈ m, p.2.coeff = 0 ∨ pyDiv one p.2 ≠ Option.none) :
    invert_exchange_rate (toPyVals m) = .error .divisionByZero := by
  induction m with
  | nil => simp at hmem
  | cons p rest ih =>
    obtain ⟨k, v⟩ := p
    have hto : toPyVals ((k, v) :: rest) = (k, PyVal.dec v) :: toPyVals rest := rfl
    rw [hto]
    by_cases hv : v.coeff = 0
    · exact invert_cons_err k _ _ _ (invertVal_dec_zero v hv)
    · rcases List.mem_cons.mp hmem with heq | htail
      · exact absurd (congrArg PyDecimal.coeff (congrArg Prod.snd heq) ▸ hzero) hv
      · have hsafe' : ∀ p ∈ rest, p.2.coeff = 0 ∨ pyDiv one p.2 ≠ Option.none := by
          intro p hp
          exact hsafe p (List.mem_cons_of_mem _ hp)
        rcases hsafe (k, v) (List.mem_cons_self _ _) with h0 | hnn
        · exact absurd h0 hv
        · rcases hdiv : pyDiv one v with _ | y
          · exact absurd hdiv hnn
          · exact invert_cons_err_tail k _ _ _ _ (invertVal_dec_ok v y hv hdiv)
              (ih htail hsafe')

/-- The store stage has no influence on which stages run or on the
exception outcome of the run: `store_exchange_rate` swallows all its
failures. -/
theorem mainRun_env_independent (h : HttpResult) (env env' : Env) :
    (mainRun h env).stages = (mainRun h env').stages ∧
      (mainRun h env).outcome = (mainRun h env').outcome := by
  cases hf : fetch_exchange_rate h with
  | error er => constructor <;> simp [mainRun, hf]
  | ok f =>
    cases hc : clean_exchange_rate f.ret with
    | error er => constructor <;> simp [mainRun, hf, hc]
    | ok filtered =>
      cases hi : invert_exchange_rate (toPyVals filtered) with
      | error er => constructor <;> simp [mainRun, hf, hc, hi]
      | ok inv => constructor <;> simp [mainRun, hf, hc, hi]

/-- C7 counterexample: on a simulated HTTP 500, `fetch_exchange_rate`
does not return a typed error value carrying the status code and
reason; it returns normally with `None` (the information goes to the
log only). -/
theorem C7_counterexample :
    fetch_exchange_rate (.status 500 "Internal Server Error") =
      .ok ⟨FetchReturn.nothing, ["Status Error: 500 - Internal Server Error"]⟩ := rfl

/-- C7 (amended): on every non-2xx response, `fetch_exchange_rate` logs
`Status Error: <code> - <reason>` and returns `None`; the run then dies
with a `TypeError` in the validate stage and zero records are inserted
in either collection. -/
theorem C7_http_error_no_insert (code : Nat) (reason : String) (env : Env) :
    fetch_exchange_rate (.status code reason) =
      .ok ⟨.nothing, ["Status Error: " ++ toString code ++ " - " ++ reason]⟩ ∧
    (mainRun (.status code reason) env).inserted = [] ∧
    (mainRun (.status code reason) env).outcome = .error .typeError ∧
    Stage.store ∉ (mainRun (.status code reason) env).stages := by
  refine ⟨rfl, rfl, rfl, ?_⟩
  intro hmem
  simp [mainRun, fetch_exchange_rate, clean_exchange_rate] at hmem

/-- C8: the fiat insert and the crypto insert are two independent
writes in that order.  If the crypto insert fails after a successful
fiat insert, the fiat snapshot stays persisted and no crypto snapshot
is written; when both succeed the fiat record precedes the crypto
record. -/
theorem C8_no_cross_record_atomicity (mongo : String) (hm : mongo ≠ "")
    (inverted : List (String × String)) (f cr : Record)
    (hf : fiatOf inverted = .ok f) (hc : cryptoOf inverted = .ok cr) :
    store_exchange_rate ⟨true, some mongo, true, true, false⟩ inverted =
      ⟨[f], [dbErrMsg]⟩ ∧
    store_exchange_rate ⟨true, some mongo, true, true, true⟩ inverted =
      ⟨[f, cr], []⟩ := by
  constructor <;> simp [store_exchange_rate, hm, hf, hc]

theorem C8_witness :
    store_exchange_rate ⟨true, some "mongodb://db", true, true, false⟩ invSample =
      ⟨[Record.fiat ⟨false, 2, 0⟩ ⟨false, 4, 0⟩ ⟨false, 5, 0⟩], [dbErrMsg]⟩ ∧
    store_exchange_rate ⟨true, some "mongodb://db", true, true, true⟩ invSample =
      ⟨[Record.fiat ⟨false, 2, 0⟩ ⟨false, 4, 0⟩ ⟨false, 5, 0⟩,
        Record.crypto ⟨false, 10, 0⟩ ⟨false, 20, 0⟩ ⟨false, 50, 0⟩], []⟩ :=
  C8_no_cross_record_atomicity "mongodb://db" (by decide) invSample _ _ rfl rfl

/-- C9 counterexample: with the `.env` file absent and `MONGO` unset,
the store stage fails with the file-missing diagnostic, not the
configuration diagnostic the claim promises for every run with `MONGO`
absent or empty. -/
theorem C9_counterexample :
    store_exchange_rate ⟨false, Option.none, true, true, true⟩ [] =
      ⟨[], [envFileMsg]⟩ ∧ envFileMsg ≠ mongoMsg := by
  constructor
  · rfl
  · decide

/-- C9 (amended): provided the `.env` file exists, a missing or empty
`MONGO` variable makes `store_exchange_rate` log the configuration
diagnostic and insert zero records; and the fetch, validate and invert
stages are unaffected by the store environment altogether. -/
theorem C9_missing_mongo (env : Env) (inverted : List (String × String))
    (hdot : env.dotenvExists = true) (hmongo : env.mongo.getD "" = "") :
    store_exchange_rate env inverted = ⟨[], [mongoMsg]⟩ ∧
    ∀ (h : HttpResult) (env' : Env),
      (mainRun h env).stages = (mainRun h env').stages ∧
        (mainRun h env).outcome = (mainRun h env').outcome := by
  constructor
  · simp [store_exchange_rate, hdot, hmongo]
  · intro h env'
    exact mainRun_env_independent h env env'

theorem C9_witness :
    store_exchange_rate ⟨true, Option.none, true, true, true⟩ invSample =
      ⟨[], [mongoMsg]⟩ ∧
    ∀ (h : HttpResult) (env' : Env),
      (mainRun h ⟨true, Option.none, true, true, true⟩).stages = (mainRun h env').stages ∧
        (mainRun h ⟨true, Option.none, true, true, true⟩).outcome =
          (mainRun h env').outcome :=
  C9_missing_mongo ⟨true, Option.none, true, true, true⟩ invSample rfl rfl

/-- C10: if the `.env` file is absent, `store_exchange_rate` logs the
file-missing diagnostic and returns without inserting anything and
without raising, whatever the `MONGO` variable or the database state
may be. -/
theorem C10_dotenv_required (mongo : Option String) (con fi cr : Bool)
    (inverted : List (String × String)) :
    store_exchange_rate ⟨false, mongo, con, fi, cr⟩ inverted = ⟨[], [envFileMsg]⟩ := rfl

/-- C2 counterexample: two runs refute the claim as stated.  First, a
run whose fetch stage fails with HTTP 500 does not abort at the fetch
stage — the swallowed failure lets the validate stage run (on `None`)
and the run aborts there instead.  Second, a run whose store stage
fails (database connection refused) does not abort at all: the failure
is logged and swallowed, and the run finishes normally having entered
every stage and inserted nothing. -/
theorem C2_counterexample :
    (mainRun (.status 500 "Internal Server Error") envAllOk).stages ≠ [Stage.fetch] ∧
    (mainRun (.status 500 "Internal Server Error") envAllOk).stages =
      [Stage.fetch, Stage.validate] ∧
    (mainRun (.ok sampleRaw) envConnFail).inserted = [] ∧
    (mainRun (.ok sampleRaw) envConnFail).outcome = .ok () ∧
    (mainRun (.ok sampleRaw) envConnFail).stages =
      [Stage.fetch, Stage.validate, Stage.invert, Stage.store] := by
  refine ⟨?_, rfl, rfl, rfl, rfl⟩
  decide

/-- C2 (amended): a malformed 2xx body aborts the run at the fetch
stage (the body extraction raises outside the `except` clauses); an
HTTP-status or transport failure is swallowed — fetch logs it and
returns `None` — and the run instead aborts in the validate stage with
a `TypeError`; a validate or invert failure aborts the run at that
stage with an uncaught exception.  In all these cases zero records are
inserted.  A store failure aborts nothing: the run completes normally,
and exactly what the store stage managed to insert (at most the
fiat/crypto two-write gap) is persisted. -/
theorem C2_stage_failures (h : HttpResult) (env : Env) :
    (∀ er : PyErr, fetch_exchange_rate h = .error er →
      (mainRun h env).inserted = [] ∧
      (mainRun h env).stages = [Stage.fetch] ∧
      (mainRun h env).outcome = .error er) ∧
    (∀ f : FetchResult, fetch_exchange_rate h = .ok f → f.ret = .nothing →
      (mainRun h env).inserted = [] ∧
      (mainRun h env).stages = [Stage.fetch, Stage.validate] ∧
      (mainRun h env).outcome = .error .typeError) ∧
    (∀ (f : FetchResult) (er : PyErr), fetch_exchange_rate h = .ok f →
      clean_exchange_rate f.ret = .error er →
      (mainRun h env).inserted = [] ∧
      (mainRun h env).stages = [Stage.fetch, Stage.validate] ∧
      (mainRun h env).outcome = .error er) ∧
    (∀ (f : FetchResult) (filtered : List (String × PyDecimal)) (er : PyErr),
      fetch_exchange_rate h = .ok f →
      clean_exchange_rate f.ret = .ok filtered →
      invert_exchange_rate (toPyVals filtered) = .error er →
      (mainRun h env).inserted = [] ∧
      (mainRun h env).stages = [Stage.fetch, Stage.validate, Stage.invert] ∧
      (mainRun h env).outcome = .error er) ∧
    (∀ (f : FetchResult) (filtered : List (String × PyDecimal))
        (inverted : List (String × String)),
      fetch_exchange_rate h = .ok f →
      clean_exchange_rate f.ret = .ok filtered →
      invert_exchange_rate (toPyVals filtered) = .ok inverted →
      (mainRun h env).stages = [Stage.fetch, Stage.validate, Stage.invert, Stage.store] ∧
      (mainRun h env).outcome = .ok () ∧
      (mainRun h env).inserted = (store_exchange_rate env inverted).inserted) := by
  refine ⟨?_, ?_, ?_, ?_, ?_⟩
  · intro er hf
    exact ⟨by simp [mainRun, hf], by simp [mainRun, hf], by simp [mainRun, hf]⟩
  · intro f hf hret
    have hclean : clean_exchange_rate f.ret = .error .typeError := by
      rw [hret]
      rfl
    exact ⟨by simp [mainRun, hf, hclean], by simp [mainRun, hf, hclean],
      by simp [mainRun, hf, hclean]⟩
  · intro f er hf hclean
    exact ⟨by simp [mainRun, hf, hclean], by simp [mainRun, hf, hclean],
      by simp [mainRun, hf, hclean]⟩
  · intro f filtered er hf hclean hinv
    exact ⟨by simp [mainRun, hf, hclean, hinv], by simp [mainRun, hf, hclean, hinv],
      by simp [mainRun, hf, hclean, hinv]⟩
  · intro f filtered inverted hf hclean hinv
    exact ⟨by simp [mainRun, hf, hclean, hinv], by simp [mainRun, hf, hclean, hinv],
      by simp [mainRun, hf, hclean, hinv]⟩

theorem C2_witness :
    (mainRun .okMalformed envAllOk).inserted = [] ∧
    (mainRun .okMalformed envAllOk).stages = [Stage.fetch] ∧
    (mainRun .okMalformed envAllOk).outcome = .error .malformedBody :=
  (C2_stage_failures .okMalformed envAllOk).1 .malformedBody rfl

/-- C3 counterexample: a rate mapping can contain a zero-valued code
and yet fail inversion with `Overflow`, not `DivisionByZero`: the
default context traps `Overflow` too, and here the AED entry
`1E-1000001`, processed before the zero BTC entry, has a reciprocal
whose adjusted exponent `1000001` exceeds `Emax`. -/
theorem C3_counterexample :
    invert_exchange_rate (toPyVals cleanedZeroOverflow) = .error .overflow ∧
    PyErr.overflow ≠ PyErr.divisionByZero := by
  refine ⟨rfl, ?_⟩
  decide

/-- C3 (amended): a zero-valued entry itself raises `DivisionByZero`
(no `Infinity`/`NaN` is produced — the default decimal context traps
the division), so inverting a mapping that contains a zero always
raises — with `DivisionByZero` whenever no entry's reciprocal
overflows the context's exponent range (an earlier `Overflow` can win
otherwise) — and any run whose cleaned mapping contains the zero
inserts nothing: the store stage is never entered. -/
theorem C3_zero_rate (m : List (String × PyDecimal)) (c : String) (x : PyDecimal)
    (hmem : (c, x) ∈ m) (hzero : x.coeff = 0) :
    invertVal (.dec x) = .error .divisionByZero ∧
    (∃ er : PyErr, invert_exchange_rate (toPyVals m) = .error er) ∧
    ((∀ p ∈ m, p.2.coeff = 0 ∨ pyDiv one p.2 ≠ Option.none) →
      invert_exchange_rate (toPyVals m) = .error .divisionByZero) ∧
    ∀ (h : HttpResult) (env : Env) (f : FetchResult),
      fetch_exchange_rate h = .ok f →
      clean_exchange_rate f.ret = .ok m →
      (mainRun h env).inserted = [] ∧
      Stage.store ∉ (mainRun h env).stages ∧
      ∃ er : PyErr, (mainRun h env).outcome = .error er := by
  obtain ⟨er, hinv⟩ := invert_zero_mem m c x hmem hzero
  refine ⟨invertVal_dec_zero x hzero, ⟨er, hinv⟩, ?_, ?_⟩
  · intro hsafe
    exact invert_zero_mem_exact m c x hmem hzero hsafe
  · intro h env f hf hclean
    refine ⟨by simp [mainRun, hf, hclean, hinv], ?_,
      ⟨er, by simp [mainRun, hf, hclean, hinv]⟩⟩
    intro hmem'
    simp [mainRun, hf, hclean, hinv] at hmem'

theorem C3_witness :
    invertVal (.dec ⟨false, 0, 0⟩) = .error .divisionByZero ∧
    invert_exchange_rate (toPyVals cleanedZero) = .error .divisionByZero ∧
    (mainRun (.ok rawZero) envAllOk).inserted = [] ∧
    Stage.store ∉ (mainRun (.ok rawZero) envAllOk).stages := by
  have h := C3_zero_rate cleanedZero "BTC" ⟨false, 0, 0⟩ (by decide) rfl
  have h4 := h.2.2.2 (.ok rawZero) envAllOk ⟨.rates rawZero, []⟩ rfl (by decide)
  exact ⟨h.1, h.2.2.1 (by decide), h4.1, h4.2.1⟩

/-- C4: a raw map that has valid values for five of the six required
codes but lacks the sixth fails validation with a `ValidationError`
naming the missing code, and neither the invert nor the store stage
runs. -/
theorem C4_missing_field (m : RawMap) (c0 : String)
    (hc0 : c0 ∈ ["AED", "EUR", "USD", "BTC", "ETH", "SOL"])
    (hmiss : m.lookup c0 = Option.none)
    (hothers : ∀ c ∈ (["AED", "EUR", "USD", "BTC", "ETH", "SOL"] : List String),
      c ≠ c0 → ∃ d : PyDecimal, getField m c = .ok d) :
    clean_exchange_rate (.rates m) = .error (.validationMissing c0) ∧
    ∀ (h : HttpResult) (env : Env) (f : FetchResult),
      fetch_exchange_rate h = .ok f → f.ret = .rates m →
      (mainRun h env).inserted = [] ∧
      Stage.invert ∉ (mainRun h env).stages ∧
      Stage.store ∉ (mainRun h env).stages ∧
      (mainRun h env).outcome = .error (.validationMissing c0) := by
  have hg0 : getField m c0 = .error (.validationMissing c0) := by
    simp [getField, hmiss]
  have hclean : clean_exchange_rate (.rates m) = .error (.validationMissing c0) := by
    fin_cases hc0
    · simp [clean_exchange_rate, hg0, except_err_bind, except_err_map]
    · obtain ⟨a, ha⟩ := hothers "AED" (by decide) (by decide)
      simp [clean_exchange_rate, ha, hg0, except_ok_bind, except_err_bind, except_err_map]
    · obtain ⟨a, ha⟩ := hothers "AED" (by decide) (by decide)
      obtain ⟨b, hb⟩ := hothers "EUR" (by decide) (by decide)
      simp [clean_exchange_rate, ha, hb, hg0, except_ok_bind, except_err_bind, except_err_map]
    · obtain ⟨a, ha⟩ := hothers "AED" (by decide) (by decide)
      obtain ⟨b, hb⟩ := hothers "EUR" (by decide) (by decide)
      obtain ⟨u, hu⟩ := hothers "USD" (by decide) (by decide)
      simp [clean_exchange_rate, ha, hb, hu, hg0, except_ok_bind, except_err_bind, except_err_map]
    · obtain ⟨a, ha⟩ := hothers "AED" (by decide) (by decide)
      obtain ⟨b, hb⟩ := hothers "EUR" (by decide) (by decide)
      obtain ⟨u, hu⟩ := hothers "USD" (by decide) (by decide)
      obtain ⟨t, ht⟩ := hothers "BTC" (by decide) (by decide)
      simp [clean_exchange_rate, ha, hb, hu, ht, hg0, except_ok_bind, except_err_bind, except_err_map]
    · obtain ⟨a, ha⟩ := hothers "AED" (by decide) (by decide)
      obtain ⟨b, hb⟩ := hothers "EUR" (by decide) (by decide)
      obtain ⟨u, hu⟩ := hothers "USD" (by decide) (by decide)
      obtain ⟨t, ht⟩ := hothers "BTC" (by decide) (by decide)
      obtain ⟨q, hq⟩ := hothers "ETH" (by decide) (by decide)
      simp [clean_exchange_rate, ha, hb, hu, ht, hq, hg0, except_ok_bind, except_err_bind, except_err_map]
  refine ⟨hclean, ?_⟩
  intro h env f hf hret
  have hclean' : clean_exchange_rate f.ret = .error (.validationMissing c0) := by
    rw [hret]
    exact hclean
  refine ⟨by simp [mainRun, hf, hclean'], ?_, ?_, by simp [mainRun, hf, hclean']⟩
  · intro hmem
    simp [mainRun, hf, hclean'] at hmem
  · intro hmem
    simp [mainRun, hf, hclean'] at hmem

theorem C4_witness :
    clean_exchange_rate (.rates rawNoBtc) = .error (.validationMissing "BTC") ∧
    (mainRun (.ok rawNoBtc) envAllOk).inserted = [] ∧
    Stage.invert ∉ (mainRun (.ok rawNoBtc) envAllOk).stages ∧
    Stage.store ∉ (mainRun (.ok rawNoBtc) envAllOk).stages ∧
    (mainRun (.ok rawNoBtc) envAllOk).outcome = .error (.validationMissing "BTC") := by
  have h := C4_missing_field rawNoBtc "BTC" (by decide) (by decide)
    (by
      intro c hc hne
      fin_cases hc
      · exact ⟨_, rfl⟩
      · exact ⟨_, rfl⟩
      · exact ⟨_, rfl⟩
      · exact absurd rfl hne
      · exact ⟨_, rfl⟩
      · exact ⟨_, rfl⟩)
  exact ⟨h.1, h.2 (.ok rawNoBtc) envAllOk ⟨.rates rawNoBtc, []⟩ rfl rfl⟩

/-- C1 counterexample: a raw map carrying all six required codes with
positive decimal values can pass validation and still fail inversion.
Here the AED rate `1E-1000001` is positive and validates, but its
reciprocal's adjusted exponent `1000001` exceeds the default context's
`Emax = 999999`, so `1/Decimal('1E-1000001')` raises the trapped
`decimal.Overflow` and the comprehension aborts. -/
theorem C1_counterexample :
    clean_exchange_rate (.rates rawOverflow) = .ok cleanedOverflow ∧
    (∀ p ∈ cleanedOverflow, p.2.sign = false ∧ 0 < p.2.coeff) ∧
    invert_exchange_rate (toPyVals cleanedOverflow) = .error .overflow := by
  refine ⟨rfl, ?_, rfl⟩
  decide

/-- C1 (amended): a raw map carrying all six required codes with
positive decimal values whose adjusted exponents lie within
`[-999998, 999998]` (so every reciprocal stays inside the default
context's exponent range) passes
validation, the inversion succeeds, and each output entry is the
decimal string of the correctly rounded reciprocal of the input —
within the fixed 28-significant-digit precision of the arithmetic (at
most half a unit in the result's last significant digit).  For values
outside that range the trapped `decimal.Overflow` can abort the
inversion instead. -/
theorem C1_validate_then_invert (m : RawMap) (aed eur usd btc eth sol : PyDecimal)
    (hA : getField m "AED" = .ok aed) (hE : getField m "EUR" = .ok eur)
    (hU : getField m "USD" = .ok usd) (hB : getField m "BTC" = .ok btc)
    (hT : getField m "ETH" = .ok eth) (hS : getField m "SOL" = .ok sol)
    (hpos : ∀ x ∈ [aed, eur, usd, btc, eth, sol],
      x.sign = false ∧ 0 < x.coeff ∧ -999998 ≤ adjExp x ∧ adjExp x ≤ 999998) :
    clean_exchange_rate (.rates m) =
      .ok [("AED", aed), ("EUR", eur), ("USD", usd),
        ("BTC", btc), ("ETH", eth), ("SOL", sol)] ∧
    invert_exchange_rate (toPyVals [("AED", aed), ("EUR", eur), ("USD", usd),
        ("BTC", btc), ("ETH", eth), ("SOL", sol)]) =
      .ok [("AED", toSciString (pyDivRes one aed)),
        ("EUR", toSciString (pyDivRes one eur)),
        ("USD", toSciString (pyDivRes one usd)),
        ("BTC", toSciString (pyDivRes one btc)),
        ("ETH", toSciString (pyDivRes one eth)),
        ("SOL", toSciString (pyDivRes one sol))] ∧
    ∀ x ∈ [aed, eur, usd, btc, eth, sol],
      |ratOf (pyDivRes one x) - 1 / ratOf x| ≤
        (10 : ℚ) ^ (-27 : ℤ) / 2 * ratOf (pyDivRes one x) := by
  have h1 := hpos aed (by simp)
  have h2 := hpos eur (by simp)
  have h3 := hpos usd (by simp)
  have h4 := hpos btc (by simp)
  have h5 := hpos eth (by simp)
  have h6 := hpos sol (by simp)
  refine ⟨clean_rates_ok m aed eur usd btc eth sol hA hE hU hB hT hS, ?_, ?_⟩
  · refine invert_cons_ok _ _ _ _ _ (invertVal_dec_ok aed _ h1.2.1.ne'
      (pyDiv_one_in_range aed h1.2.2.1 h1.2.2.2)) ?_
    refine invert_cons_ok _ _ _ _ _ (invertVal_dec_ok eur _ h2.2.1.ne'
      (pyDiv_one_in_range eur h2.2.2.1 h2.2.2.2)) ?_
    refine invert_cons_ok _ _ _ _ _ (invertVal_dec_ok usd _ h3.2.1.ne'
      (pyDiv_one_in_range usd h3.2.2.1 h3.2.2.2)) ?_
    refine invert_cons_ok _ _ _ _ _ (invertVal_dec_ok btc _ h4.2.1.ne'
      (pyDiv_one_in_range btc h4.2.2.1 h4.2.2.2)) ?_
    refine invert_cons_ok _ _ _ _ _ (invertVal_dec_ok eth _ h5.2.1.ne'
      (pyDiv_one_in_range eth h5.2.2.1 h5.2.2.2)) ?_
    refine invert_cons_ok _ _ _ _ _ (invertVal_dec_ok sol _ h6.2.1.ne'
      (pyDiv_one_in_range sol h6.2.2.1 h6.2.2.2)) ?_
    exact invert_nil
  · intro x hx
    obtain ⟨hs, hc, hlo, hhi⟩ := hpos x hx
    have h := (pyDiv_correct one x rfl hs (by decide) hc).2.2
    rwa [ratOf_one] at h

theorem C1_witness :
    clean_exchange_rate (.rates sampleRaw) =
      .ok [("AED", ⟨false, 152, -1⟩), ("EUR", ⟨false, 610, -1⟩), ("USD", ⟨false, 560, -1⟩),
        ("BTC", ⟨false, 5, -6⟩), ("ETH", ⟨false, 15, -5⟩), ("SOL", ⟨false, 2, -2⟩)] ∧
    invert_exchange_rate (toPyVals [("AED", ⟨false, 152, -1⟩), ("EUR", ⟨false, 610, -1⟩),
        ("USD", ⟨false, 560, -1⟩), ("BTC", ⟨false, 5, -6⟩), ("ETH", ⟨false, 15, -5⟩),
        ("SOL", ⟨false, 2, -2⟩)]) =
      .ok [("AED", toSciString (pyDivRes one ⟨false, 152, -1⟩)),
        ("EUR", toSciString (pyDivRes one ⟨false, 610, -1⟩)),
        ("USD", toSciString (pyDivRes one ⟨false, 560, -1⟩)),
        ("BTC", toSciString (pyDivRes one ⟨false, 5, -6⟩)),
        ("ETH", toSciString (pyDivRes one ⟨false, 15, -5⟩)),
        ("SOL", toSciString (pyDivRes one ⟨false, 2, -2⟩))] ∧
    ∀ x ∈ ([⟨false, 152, -1⟩, ⟨false, 610, -1⟩, ⟨false, 560, -1⟩,
        ⟨false, 5, -6⟩, ⟨false, 15, -5⟩, ⟨false, 2, -2⟩] : List PyDecimal),
      |ratOf (pyDivRes one x) - 1 / ratOf x| ≤
        (10 : ℚ) ^ (-27 : ℤ) / 2 * ratOf (pyDivRes one x) :=
  C1_validate_then_invert sampleRaw ⟨false, 152, -1⟩ ⟨false, 610, -1⟩ ⟨false, 560, -1⟩
    ⟨false, 5, -6⟩ ⟨false, 15, -5⟩ ⟨false, 2, -2⟩ rfl rfl rfl rfl rfl rfl (by decide)

/-- C5: inverting a one-entry positive rate mapping twice returns the
original value within the fixed 28-significant-digit precision: the
relative error of the double reciprocal is at most `3/2·10^(-27)`
(1.5 units in the 28th significant digit).  The claim's safe-range
exclusion is instantiated as an adjusted exponent within
`[-999997, 999997]`: this keeps both reciprocals strictly inside the
default context's exponent range, away from `Overflow` and from the
subnormal re-rounding at `Etiny` that shortens a first reciprocal to
27 digits and breaks the bound. -/
theorem C5_double_inversion (c : String) (x : PyDecimal) (hs : x.sign = false)
    (hx : 0 < x.coeff) (hlo : -999997 ≤ adjExp x) (hhi : adjExp x ≤ 999997) :
    ∃ y z : PyDecimal,
      invert_exchange_rate [(c, PyVal.dec x)] = .ok [(c, toSciString y)] ∧
      invert_exchange_rate [(c, PyVal.str (toSciString y))] = .ok [(c, toSciString z)] ∧
      |ratOf z - ratOf x| ≤ 3 / 2 * (10 : ℚ) ^ (-27 : ℤ) * ratOf x := by
  have hdiv1 : pyDiv one x = some (pyDivRes one x) :=
    pyDiv_one_in_range x (by omega) (by omega)
  obtain ⟨hys, hyc, herr1⟩ := pyDiv_correct one x rfl hs (by decide) hx
  have hone : adjExp one = 0 := adjExp_one
  obtain ⟨hyadj1, hyadj2⟩ := adjExp_pyDivRes one x (by decide) hx
  have hdiv2 : pyDiv one (pyDivRes one x) = some (pyDivRes one (pyDivRes one x)) :=
    pyDiv_one_in_range (pyDivRes one x) (by omega) (by omega)
  obtain ⟨hzs, hzc, herr2⟩ := pyDiv_correct one (pyDivRes one x) rfl hys (by decide) hyc
  rw [ratOf_one] at herr1 herr2
  refine ⟨pyDivRes one x, pyDivRes one (pyDivRes one x), ?_, ?_, ?_⟩
  · exact invert_cons_ok _ _ _ _ _ (invertVal_dec_ok x _ hx.ne' hdiv1) invert_nil
  · have hparse : decimalOfVal (.str (toSciString (pyDivRes one x))) =
        some (pyDivRes one x) :=
      parseDec_toSciString (pyDivRes one x) hys hyc
    have hval : invertVal (.str (toSciString (pyDivRes one x))) =
        .ok (toSciString (pyDivRes one (pyDivRes one x))) := by
      simp [invertVal, hparse, hyc.ne', hdiv2]
    exact invert_cons_ok _ _ _ _ _ hval invert_nil
  · set X := ratOf x with hXdef
    set Y := ratOf (pyDivRes one x) with hYdef
    set Z := ratOf (pyDivRes one (pyDivRes one x)) with hZdef
    set u : ℚ := (10 : ℚ) ^ (-27 : ℤ) / 2 with hudef
    clear_value X Y Z u
    have hX : 0 < X := by rw [hXdef]; exact ratOf_pos x hs hx
    have hY : 0 < Y := by rw [hYdef]; exact ratOf_pos _ hys hyc
    have hZ : 0 < Z := by rw [hZdef]; exact ratOf_pos _ hzs hzc
    have hu : 0 < u := by rw [hudef]; positivity
    have hu3 : u ≤ 1 / 3 := by
      have hprod : (10 : ℚ) ^ (-27 : ℤ) * (10 : ℚ) ^ (27 : ℤ) = 1 := by
        rw [← zpow_add₀ (by norm_num : (10 : ℚ) ≠ 0)]
        norm_num
      have hz : (10 : ℚ) ^ (27 : ℤ) = ((10 ^ 27 : ℕ) : ℚ) := by norm_num
      rw [hz] at hprod
      have hsmall : (10 : ℚ) ^ (-27 : ℤ) = 1 / ((10 ^ 27 : ℕ) : ℚ) :=
        eq_div_of_mul_eq (by positivity) hprod
      rw [hudef, hsmall]
      norm_num
    have e1 : |Y * X - 1| ≤ u * (Y * X) := by
      have k : (Y - 1 / X) * X = Y * X - 1 := by field_simp
      calc |Y * X - 1| = |(Y - 1 / X) * X| := by rw [k]
        _ = |Y - 1 / X| * X := by rw [abs_mul, abs_of_pos hX]
        _ ≤ (u * Y) * X := mul_le_mul_of_nonneg_right herr1 hX.le
        _ = u * (Y * X) := by ring
    have e2 : |Z * Y - 1| ≤ u * (Z * Y) := by
      have k : (Z - 1 / Y) * Y = Z * Y - 1 := by field_simp
      calc |Z * Y - 1| = |(Z - 1 / Y) * Y| := by rw [k]
        _ = |Z - 1 / Y| * Y := by rw [abs_mul, abs_of_pos hY]
        _ ≤ (u * Z) * Y := mul_le_mul_of_nonneg_right herr2 hY.le
        _ = u * (Z * Y) := by ring
    obtain ⟨e1b, e1a⟩ := abs_le.mp e1
    obtain ⟨e2b, e2a⟩ := abs_le.mp e2
    have key2 : Z - u * Z ≤ X + u * X := by
      have k1 : (Z - u * Z) * Y ≤ (X + u * X) * Y := by nlinarith [e2a, e1b]
      exact le_of_mul_le_mul_right k1 hY
    have hYX : 0 < Y * X := mul_pos hY hX
    have habs : |Z - X| ≤ u * Z + u * X := by
      have eq1 : (Z - X) * (Y * X) = ((Z * Y - 1) - (X * Y - 1)) * X := by ring
      have hstep : |Z - X| * (Y * X) ≤ (u * Z + u * X) * (Y * X) := by
        calc |Z - X| * (Y * X) = |(Z - X) * (Y * X)| := by
              rw [abs_mul, abs_of_pos hYX]
          _ = |((Z * Y - 1) - (X * Y - 1)) * X| := by rw [eq1]
          _ = |(Z * Y - 1) - (X * Y - 1)| * X := by rw [abs_mul, abs_of_pos hX]
          _ ≤ (|Z * Y - 1| + |X * Y - 1|) * X := by
              have := abs_sub (Z * Y - 1) (X * Y - 1)
              exact mul_le_mul_of_nonneg_right this hX.le
          _ ≤ (u * (Z * Y) + u * (Y * X)) * X := by
              have hxy : |X * Y - 1| ≤ u * (Y * X) := by
                rw [show X * Y - 1 = Y * X - 1 from by ring]
                exact e1
              nlinarith [e2, hxy, hX]
          _ = (u * Z + u * X) * (Y * X) := by ring
      exact le_of_mul_le_mul_right hstep hYX
    have p1 : u * Z ≤ 1 / 3 * Z := mul_le_mul_of_nonneg_right hu3 hZ.le
    have p2 : u * X ≤ 1 / 3 * X := mul_le_mul_of_nonneg_right hu3 hX.le
    have k4 : Z ≤ 2 * X := by linarith [key2, p1, p2]
    have p3 : u * Z ≤ u * (2 * X) := mul_le_mul_of_nonneg_left k4 hu.le
    have hfinal : |Z - X| ≤ 3 * u * X := by linarith
    calc |Z - X| ≤ 3 * u * X := hfinal
      _ = 3 / 2 * (10 : ℚ) ^ (-27 : ℤ) * X := by rw [hudef]; ring

theorem C5_witness :
    ∃ y z : PyDecimal,
      invert_exchange_rate [("USD", PyVal.dec ⟨false, 3, 0⟩)] = .ok [("USD", toSciString y)] ∧
      invert_exchange_rate [("USD", PyVal.str (toSciString y))] = .ok [("USD", toSciString z)] ∧
      |ratOf z - ratOf ⟨false, 3, 0⟩| ≤
        3 / 2 * (10 : ℚ) ^ (-27 : ℤ) * ratOf ⟨false, 3, 0⟩ :=
  C5_double_inversion "USD" ⟨false, 3, 0⟩ rfl (by decide) (by decide) (by decide)

/-- C6 counterexample: on the spec's raw map the inverted USD string is
`0.01785714285714285714285714286` (28 significant digits, round half
even) — not the claimed 29-digit truncation — and the inverted BTC
string is `2E+5`, not `200000` (`str()` of a positive-exponent decimal
uses scientific notation). -/
theorem C6_counterexample :
    invert_exchange_rate (toPyVals cleanedSample) =
      .ok [("AED", "0.06578947368421052631578947368"),
        ("EUR", "0.01639344262295081967213114754"),
        ("USD", "0.01785714285714285714285714286"),
        ("BTC", "2E+5"),
        ("ETH", "6666.666666666666666666666667"),
        ("SOL", "5E+1")] ∧
    ("0.01785714285714285714285714286" : String) ≠ "0.017857142857142857142857142857" ∧
    ("2E+5" : String) ≠ "200000" := by
  refine ⟨rfl, ?_, ?_⟩ <;> decide

/-- C6 (amended): on the spec's raw map the pipeline validates, inverts
and stores one fiat and one crypto record; the stored fiat USD field is
the decimal written `0.01785714285714285714285714286` and the stored
crypto BTC field is the decimal written `2E+5` (numerically `200000`,
coefficient 2, exponent 5). -/
theorem C6_end_to_end :
    clean_exchange_rate (.rates sampleRaw) = .ok cleanedSample ∧
    mainRun (.ok sampleRaw) envAllOk =
      ⟨[Stage.fetch, Stage.validate, Stage.invert, Stage.store],
       [Record.fiat ⟨false, 6578947368421052631578947368, -29⟩
          ⟨false, 1639344262295081967213114754, -29⟩
          ⟨false, 1785714285714285714285714286, -29⟩,
        Record.crypto ⟨false, 2, 5⟩ ⟨false, 6666666666666666666666666667, -24⟩
          ⟨false, 5, 1⟩],
       .ok (), []⟩ :=
  ⟨rfl, rfl⟩

end BirrExchange

